import Mathlib

/-!
# Verification of backuppy core components

A shallow embedding, in Lean 4, of the core algorithms of the `backuppy`
incremental backup tool (acrlabs/backuppy), together with proofs and
refutations of the properties stated in its natural-language specification.

Modelled components:

* `backuppy/io.py` — the block-wise streaming reader (`IOIter.reader`),
  block size constants;
* `backuppy/blob.py` — the binary diff codec (`compute_sha_and_diff`,
  `apply_diff`) over the position-addressed wire format
  `(@<pos>|<action><len>|<contents?>)*`;
* `backuppy/crypto.py` — the compress/encrypt/HMAC envelope
  (`compress_and_encrypt`, `decrypt_and_unpack`);
* `backuppy/manifest.py` — the manifest relational store (rows of file
  versions, the `base_shas` adjunct table, `insert_or_update`, `delete`,
  `get_entry`, `get_entries_by_sha`, the DDL of `_create_manifest_tables`);
* `backuppy/stores/backup_store.py` — the backup-store engine
  (`save_if_new`, `_write_copy`, `_write_diff`, `save`) modelled as a
  state+trace function, so that ordering of backend uploads and manifest
  commits can be stated.

External libraries used by the source (`edlib` alignment, `zlib`
compression, AES-CTR from `cryptography`, `hashlib` SHA-256) are not part
of the repository; they are modelled as explicit parameters constrained by
the documented behaviour the source relies on (an alignment producing a
valid edit script, a compressor/decompressor pair that invert each other,
a stream cipher that is XOR with a keystream, an arbitrary deterministic
hash function).  Every theorem that depends on such a parameter is
universally quantified over it, with the assumed behaviour as an explicit
hypothesis, and is instantiated at a concrete model in its witness.

Machine-level bytes are modelled as `Nat` (all constructions stay below
256; no arithmetic overflows are involved anywhere in the modelled code).
Byte strings are `List Nat`.
-/

namespace Backuppy

/-- A byte string (Python `bytes`) as a list of naturals. -/
abbrev Bytes := List Nat

/-- `extract xs a b` = the slice `xs[a:b]` (Python semantics: clamped). -/
def extract (xs : Bytes) (a b : Nat) : Bytes :=
  (xs.drop a).take (b - a)

/-- `io.py` line 16: `BLOCK_SIZE = (1 << 30)  # 1GB block size`. -/
def BLOCK_SIZE : Nat := 1 <<< 30

/-- `IOIter.reader` (io.py lines 69-91): repeatedly `read` at most
`block_size` bytes (the source requests `min(block_size, self.size)`,
which reads the same blocks because a read never returns more bytes than
remain) and yield each non-empty block.  The yielded blocks are the
`blockSize`-chunks of the file contents; a zero block size reads `b''`
immediately and yields nothing. -/
def readerBlocks (blockSize : Nat) (content : Bytes) : List Bytes :=
  if h : blockSize = 0 ∨ content = [] then []
  else
    content.take blockSize :: readerBlocks blockSize (content.drop blockSize)
termination_by content.length
decreasing_by
  push_neg at h
  obtain ⟨h0, hc⟩ := h
  have : 0 < content.length := List.length_pos.mpr hc
  simp only [List.length_drop]
  omega

theorem readerBlocks_nil (blockSize : Nat) : readerBlocks blockSize [] = [] := by
  rw [readerBlocks]; simp

theorem readerBlocks_zero (content : Bytes) : readerBlocks 0 content = [] := by
  rw [readerBlocks]; simp

theorem readerBlocks_cons (blockSize : Nat) (content : Bytes)
    (h0 : blockSize ≠ 0) (hc : content ≠ []) :
    readerBlocks blockSize content =
      content.take blockSize :: readerBlocks blockSize (content.drop blockSize) := by
  rw [readerBlocks]
  simp [h0, hc]

theorem readerBlocks_join_aux (blockSize : Nat) (h0 : blockSize ≠ 0) :
    ∀ (n : Nat) (content : Bytes), content.length ≤ n →
      (readerBlocks blockSize content).flatten = content := by
  intro n
  induction n with
  | zero =>
    intro content hn
    have hc : content = [] := List.length_eq_zero.mp (Nat.le_zero.mp hn)
    subst hc; simp [readerBlocks_nil]
  | succ m ih =>
    intro content hn
    by_cases hc : content = []
    · subst hc; simp [readerBlocks_nil]
    · rw [readerBlocks_cons blockSize content h0 hc]
      have hlt : (content.drop blockSize).length ≤ m := by
        have : 0 < content.length := List.length_pos.mpr hc
        simp only [List.length_drop]
        omega
      simp [List.flatten, ih (content.drop blockSize) hlt]

/-- Joining the reader's blocks recovers the file contents. -/
theorem readerBlocks_join (blockSize : Nat) (h0 : blockSize ≠ 0) (content : Bytes) :
    (readerBlocks blockSize content).flatten = content :=
  readerBlocks_join_aux blockSize h0 content.length content (Nat.le_refl _)

theorem readerBlocks_mem_aux (blockSize : Nat) :
    ∀ (n : Nat) (content : Bytes), content.length ≤ n →
      ∀ b ∈ readerBlocks blockSize content, b.length ≤ blockSize ∧ b ≠ [] := by
  intro n
  induction n with
  | zero =>
    intro content hn b hb
    have hc : content = [] := List.length_eq_zero.mp (Nat.le_zero.mp hn)
    subst hc
    simp [readerBlocks_nil] at hb
  | succ m ih =>
    intro content hn b hb
    by_cases h : blockSize = 0 ∨ content = []
    · rw [readerBlocks] at hb
      simp [h] at hb
    · push_neg at h
      obtain ⟨h0, hc⟩ := h
      rw [readerBlocks_cons blockSize content h0 hc] at hb
      rcases List.mem_cons.mp hb with hb | hb
      · subst hb
        constructor
        · simpa using List.length_take_le blockSize content
        · intro hEq
          rcases List.take_eq_nil_iff.mp hEq with h | h
          · exact h0 h
          · exact hc h
      · have hlt : (content.drop blockSize).length ≤ m := by
          have : 0 < content.length := List.length_pos.mpr hc
          simp only [List.length_drop]
          omega
        exact ih (content.drop blockSize) hlt b hb

/-- Every block the reader yields has length at most the block size. -/
theorem readerBlocks_length_le (blockSize : Nat) (content : Bytes)
    (b : Bytes) (hb : b ∈ readerBlocks blockSize content) : b.length ≤ blockSize :=
  (readerBlocks_mem_aux blockSize content.length content (Nat.le_refl _) b hb).1

/-- No block the reader yields is empty. -/
theorem readerBlocks_ne_nil (blockSize : Nat) (content : Bytes)
    (b : Bytes) (hb : b ∈ readerBlocks blockSize content) : b ≠ [] :=
  (readerBlocks_mem_aux blockSize content.length content (Nat.le_refl _) b hb).2

/-- Number of reader blocks for a given content. -/
def numBlocks (blockSize : Nat) (content : Bytes) : Nat :=
  (readerBlocks blockSize content).length

/-- `itertools.zip_longest` specialised to two lists, padding with `none`. -/
def zipLongest : List α → List β → List (Option α × Option β)
  | [], [] => []
  | a :: as, [] => (some a, none) :: zipLongest as []
  | [], b :: bs => (none, some b) :: zipLongest [] bs
  | a :: as, b :: bs => (some a, some b) :: zipLongest as bs

/-! ## ASCII decimal numbers inside the diff wire format

The diff format writes positions and lengths as ASCII decimal
(`f'@{pos}'.encode('utf-8')`, `f'{num}'.encode('utf-8')`) and parses them
back with Python `int(...)`. -/

/-- ASCII byte values used by the wire format. -/
def AT_BYTE : Nat := 64

/-- blob.py `Token.SEP = b'|'`. -/
def SEP_BYTE : Nat := 124

/-- blob.py `Token.DEL = b'D'`. -/
def DEL_BYTE : Nat := 68

/-- blob.py `Token.INS = b'I'`. -/
def INS_BYTE : Nat := 73

/-- blob.py `Token.REPL = b'X'`. -/
def REPL_BYTE : Nat := 88

/-- The ASCII decimal encoding of a natural number (`str(n).encode()`). -/
def toDec (n : Nat) : Bytes :=
  if h : n < 10 then [48 + n]
  else toDec (n / 10) ++ [48 + n % 10]
termination_by n
decreasing_by
  exact Nat.div_lt_self (by omega) (by omega)

/-- One digit byte: 48..57. -/
def isDigit (b : Nat) : Bool := 48 ≤ b && b ≤ 57

/-- Python `int(s)` on a byte string of pure ASCII digits; `none` models the
`ValueError` raised on an empty or non-digit string. -/
def parseNat (s : Bytes) : Option Nat :=
  if s = [] ∨ ¬ (s.all isDigit) then none
  else some (s.foldl (fun acc b => acc * 10 + (b - 48)) 0)

theorem toDec_digits (n : Nat) : (toDec n).all isDigit = true := by
  induction n using Nat.strong_induction_on with
  | _ n ih =>
    rw [toDec]
    by_cases h : n < 10
    · rw [dif_pos h]
      simp [isDigit]
      omega
    · rw [dif_neg h]
      rw [List.all_append]
      have h1 := ih (n / 10) (Nat.div_lt_self (by omega) (by omega))
      simp [h1, isDigit]
      have := Nat.mod_lt n (y := 10) (by omega)
      omega

theorem toDec_ne_nil (n : Nat) : toDec n ≠ [] := by
  rw [toDec]
  by_cases h : n < 10 <;> simp [h]

theorem toDec_no_sep (n : Nat) : ∀ b ∈ toDec n, b ≠ SEP_BYTE := by
  intro b hb
  have hall := toDec_digits n
  rw [List.all_eq_true] at hall
  have := hall b hb
  simp [isDigit] at this
  simp [SEP_BYTE]
  omega

theorem parseNat_append_digit (s : Bytes) (hs : s ≠ []) (hd : s.all isDigit = true)
    (d : Nat) (hd0 : 48 ≤ d) (hd9 : d ≤ 57) :
    parseNat (s ++ [d]) = (parseNat s).map (fun v => v * 10 + (d - 48)) := by
  unfold parseNat
  have hall : (s ++ [d]).all isDigit = true := by
    rw [List.all_append]
    simp [hd, isDigit]
    omega
  simp only [hall, hd, List.append_eq_nil, ne_eq]
  simp [hs, List.foldl_append]

theorem parseNat_toDec (n : Nat) : parseNat (toDec n) = some n := by
  induction n using Nat.strong_induction_on with
  | _ n ih =>
    rw [toDec]
    by_cases h : n < 10
    · rw [dif_pos h]
      unfold parseNat
      have hd : isDigit (48 + n) = true := by simp [isDigit]; omega
      simp [hd]
    · rw [dif_neg h]
      rw [parseNat_append_digit (toDec (n / 10)) (toDec_ne_nil _) (toDec_digits _)
        (48 + n % 10) (by omega) (by have := Nat.mod_lt n (y := 10) (by omega); omega)]
      rw [ih (n / 10) (Nat.div_lt_self (by omega) (by omega))]
      simp only [Option.map_some']
      congr 1
      omega

/-! ## Splitting on the `|` separator (Python `bytes.split(b'|', 2)`) -/

/-- Split off everything before the first separator byte; `none` if the
separator does not occur. -/
def splitSep : Bytes → Option (Bytes × Bytes)
  | [] => none
  | b :: rest =>
    if b = SEP_BYTE then some ([], rest)
    else (splitSep rest).map (fun p => (b :: p.1, p.2))

/-- `diff.split(Token.SEP, 2)` with exactly-three-way unpacking: succeeds
iff the separator occurs at least twice; the third component keeps any
further separators (`maxsplit=2`). -/
def splitSep2 (s : Bytes) : Option (Bytes × Bytes × Bytes) :=
  (splitSep s).bind (fun p => (splitSep p.2).map (fun q => (p.1, q.1, q.2)))

theorem splitSep_append (a : Bytes) (ha : ∀ x ∈ a, x ≠ SEP_BYTE) (r : Bytes) :
    splitSep (a ++ SEP_BYTE :: r) = some (a, r) := by
  induction a with
  | nil => simp [splitSep]
  | cons x xs ih =>
    have hx : x ≠ SEP_BYTE := ha x (List.mem_cons_self x xs)
    have ih2 := ih (fun y hy => ha y (List.mem_cons_of_mem x hy))
    simp [splitSep, hx, ih2]

theorem splitSep_parts_length (s : Bytes) : ∀ (a r : Bytes),
    splitSep s = some (a, r) → s.length = a.length + r.length + 1 := by
  induction s with
  | nil => intro a r h; simp [splitSep] at h
  | cons x xs ih =>
    intro a r h
    unfold splitSep at h
    by_cases hx : x = SEP_BYTE
    · rw [if_pos hx] at h
      simp only [Option.some.injEq, Prod.mk.injEq] at h
      obtain ⟨rfl, rfl⟩ := h
      simp only [List.length_cons, List.length_nil]
      omega
    · rw [if_neg hx] at h
      cases hs : splitSep xs with
      | none => rw [hs] at h; simp at h
      | some p =>
        obtain ⟨a2, r2⟩ := p
        rw [hs] at h
        simp only [Option.map_some', Option.some.injEq, Prod.mk.injEq] at h
        obtain ⟨h1, h2⟩ := h
        subst h1
        subst h2
        have := ih a2 r2 hs
        simp only [List.length_cons, this]
        omega

theorem splitSep2_parts_length (s : Bytes) (a b c : Bytes)
    (h : splitSep2 s = some (a, b, c)) :
    s.length = a.length + b.length + c.length + 2 := by
  unfold splitSep2 at h
  cases h1 : splitSep s with
  | none => rw [h1] at h; simp at h
  | some p =>
    obtain ⟨a2, r⟩ := p
    rw [h1, Option.some_bind] at h
    cases h2 : splitSep r with
    | none => rw [h2] at h; simp at h
    | some q =>
      obtain ⟨b2, c2⟩ := q
      rw [h2] at h
      simp only [Option.map_some', Option.some.injEq, Prod.mk.injEq] at h
      obtain ⟨ha, hb, hc⟩ := h
      subst ha
      subst hb
      subst hc
      have e1 := splitSep_parts_length s _ _ h1
      have e2 := splitSep_parts_length r _ _ h2
      omega

theorem splitSep2_append (a b : Bytes) (ha : ∀ x ∈ a, x ≠ SEP_BYTE)
    (hb : ∀ x ∈ b, x ≠ SEP_BYTE) (c : Bytes) :
    splitSep2 (a ++ SEP_BYTE :: (b ++ SEP_BYTE :: c)) = some (a, b, c) := by
  unfold splitSep2
  rw [splitSep_append a ha, Option.some_bind]
  rw [splitSep_append b hb]
  simp

/-! ## The diff codec (blob.py)

`compute_sha_and_diff` feeds each pair of same-index blocks of the two
files to `edlib.align(new_bytes, orig_bytes, task='path')` and translates
the resulting cigar `(count, op)` steps (ops `=`, `D`, `I`, `X`) into the
wire format; `apply_diff` parses the wire format back and replays it
against the original file.  `edlib` is an external C library; it is
modelled as a parameter `align` producing a cigar, constrained (in the
theorems) to produce a *valid* edit script (`cigarOk`), which is the
behaviour the source relies on. -/

/-- A cigar operation as parsed by `re.findall(r'(\d+)([=DIX])', cigar)`. -/
inductive CigarOp
  | eq
  | del
  | ins
  | repl
deriving DecidableEq, Repr

/-- The wire-format action byte for a (non-`=`) cigar op. -/
def actionByte : CigarOp → Nat
  | .eq => 61
  | .del => DEL_BYTE
  | .ins => INS_BYTE
  | .repl => REPL_BYTE

/-- An `align` function: `edlib.align(new_bytes, orig_bytes)` plus the
regex decode of its cigar.  First argument is the new block, second the
original block. -/
abbrev Aligner := Bytes → Bytes → List (Nat × CigarOp)

/-- The steps computed for one `zip_longest` pair (blob.py lines 102-109):
an all-insert step when the original is exhausted, an all-delete step when
the new file is exhausted, otherwise the aligner's cigar. -/
def pairSteps (align : Aligner) : Option Bytes × Option Bytes → List (Nat × CigarOp)
  | (none, some newBytes) => [(newBytes.length, .ins)]
  | (some origBytes, none) => [(origBytes.length, .del)]
  | (some origBytes, some newBytes) => align newBytes origBytes
  | (none, none) => []

/-- The inner loop of `compute_sha_and_diff` (blob.py lines 111-123):
translate one block's cigar steps into wire bytes, tracking `local_pos`.
Each emitted step is
`@{pos+local_pos-num}` ++ `|` ++ action ++ `{num}` ++ `|` ++ contents,
where contents is empty for a delete (which also rolls `local_pos` back)
and `new_bytes[local_pos-num:local_pos]` otherwise. -/
def emitSteps (pos : Nat) (newBytes : Bytes) :
    List (Nat × CigarOp) → Nat → Bytes
  | [], _ => []
  | (num, action) :: rest, localPos0 =>
    let localPos := localPos0 + num
    match action with
    | .eq => emitSteps pos newBytes rest localPos
    | .del =>
      (AT_BYTE :: toDec (pos + localPos - num)) ++ SEP_BYTE ::
        (DEL_BYTE :: toDec num) ++ SEP_BYTE ::
        emitSteps pos newBytes rest (localPos - num)
    | .ins =>
      (AT_BYTE :: toDec (pos + localPos - num)) ++ SEP_BYTE ::
        (INS_BYTE :: toDec num) ++ SEP_BYTE ::
        (extract newBytes (localPos - num) localPos ++
          emitSteps pos newBytes rest localPos)
    | .repl =>
      (AT_BYTE :: toDec (pos + localPos - num)) ++ SEP_BYTE ::
        (REPL_BYTE :: toDec num) ++ SEP_BYTE ::
        (extract newBytes (localPos - num) localPos ++
          emitSteps pos newBytes rest localPos)

/-- The outer loop of `compute_sha_and_diff` (blob.py lines 100-124): walk
the `zip_longest` of the two block streams, emitting each block's steps
and advancing `pos` by `orig_file.block_size` per pair. -/
def computeDiffGo (align : Aligner) (blockSize : Nat) :
    List (Option Bytes × Option Bytes) → Nat → Bytes
  | [], _ => []
  | pr :: rest, pos =>
    emitSteps pos (pr.2.getD []) (pairSteps align pr) 0 ++
      computeDiffGo align blockSize rest (pos + blockSize)

/-- The diff bytes written to `diff_file` by `compute_sha_and_diff` for
original contents `O` and new contents `N`, both read in
`blockSize`-blocks. -/
def computeDiff (align : Aligner) (blockSize : Nat) (O N : Bytes) : Bytes :=
  computeDiffGo align blockSize
    (zipLongest (readerBlocks blockSize O) (readerBlocks blockSize N)) 0

/-- `compute_sha_and_diff` (blob.py lines 91-127): returns
`(new_file.sha(), diff_file)`.  `new_file.sha()` is the SHA function
(modelled as the parameter `shaHex`) applied to exactly the bytes the
new file's reader yielded during the `zip_longest` walk, which drains
both readers completely. -/
def compute_sha_and_diff (shaHex : Bytes → List Nat) (align : Aligner)
    (blockSize : Nat) (O N : Bytes) : List Nat × Bytes :=
  ((readerBlocks blockSize N).flatten |> shaHex,
    computeDiff align blockSize O N)

/-- Errors `apply_diff` can raise: `DiffParseError` (blob.py lines 80, 84)
or an uncaught Python `ValueError` from `int()` on malformed bytes. -/
inductive DiffError
  | diffParse
  | valueErr
deriving DecidableEq, Repr

/-- Modelled from the spec: the variant of `IOIter.reader` taken with
keyword arguments `end` and `reset_pos=False`, which `apply_diff` calls
but which is absent from the snapshot's `io.py` (its `reader()` takes no
arguments).  Spec section 4.1: a lazy sequence of blocks "read from the
current file position up to `end` (or EOF)"; with `reset_pos=False` the
position is not reset, so draining it into the writer copies
`O[q:min(end, len(O))]` (nothing when `end ≤ q`) and leaves the position
at `max(q, min(end, len(O)))`. -/
def readUpTo (O : Bytes) (q : Nat) (e : Int) : Nat × Bytes :=
  let tgt := min e.toNat O.length
  (max q tgt, extract O q tgt)

/-- The body of `apply_diff` (blob.py lines 34-84) with the whole diff
available at once (the chunk-reassembly of the outer loop only affects
when parsing pauses for more data, not the result): repeatedly split off
`position | action+length | remainder`, scan the original forward to
`contents_pos - offset` copying into the output, then perform the delete /
insert / replace.  A leftover that no longer parses is the
`DiffParseError('Un-parseable diff')` of line 84 (the `break` at lines
50-52 and 67 followed by the end-of-input check); an unknown action byte
is the `DiffParseError` of line 80. -/
def applyGo (O : Bytes) (q : Nat) (offset : Int) (out : Bytes) (diff : Bytes) :
    Except DiffError (Nat × Int × Bytes) :=
  if diff = [] then .ok (q, offset, out)
  else
    match hsp : splitSep2 diff with
    | none => .error .diffParse
    | some (posField, actionLen, remainder) =>
      match parseNat (posField.drop 1) with
      | none => .error .valueErr
      | some contentsPos =>
        let action := actionLen.take 1
        match parseNat (actionLen.drop 1) with
        | none => .error .valueErr
        | some contentsLen =>
          let scanned := readUpTo O q ((contentsPos : Int) - offset)
          let q2 := scanned.1
          let out2 := out ++ scanned.2
          if remainder.length < contentsLen ∧ action ≠ [DEL_BYTE] then
            .error .diffParse
          else if action = [DEL_BYTE] then
            applyGo O (q2 + contentsLen) (offset - contentsLen) out2 remainder
          else if action = [INS_BYTE] then
            applyGo O q2 (offset + contentsLen)
              (out2 ++ remainder.take contentsLen) (remainder.drop contentsLen)
          else if action = [REPL_BYTE] then
            applyGo O (q2 + contentsLen) offset
              (out2 ++ remainder.take contentsLen) (remainder.drop contentsLen)
          else .error .diffParse
termination_by diff.length
decreasing_by
  all_goals
    have hlen := splitSep2_parts_length diff _ _ _ hsp
    have hdropLe : (List.drop contentsLen remainder).length ≤ remainder.length := by
      simp only [List.length_drop]
      omega
    omega

/-- `apply_diff` (blob.py lines 34-88): run the step loop, then copy any
remaining original data (`reader(end=orig_file.stat().st_size)`) to the
output. -/
def apply_diff (O : Bytes) (diff : Bytes) : Except DiffError Bytes :=
  match applyGo O 0 0 [] diff with
  | .error e => .error e
  | .ok (q, _, out) => .ok (out ++ extract O q O.length)

/-! ## Structural view of the wire format

`emitSteps` produces the serialization of a list of structural steps;
factoring that serialization out lets the apply loop be analysed one
structural step at a time. -/

/-- One wire-format step `@pos|op len|contents`. -/
structure RawStep where
  pos : Nat
  op : CigarOp
  len : Nat
  contents : Bytes
deriving Repr

/-- The serialization of one step (nested so that appending a
continuation keeps the `a ++ SEP :: (b ++ SEP :: c)` shape). -/
def serializeStep (s : RawStep) : Bytes :=
  (AT_BYTE :: toDec s.pos) ++ SEP_BYTE ::
    ((actionByte s.op :: toDec s.len) ++ SEP_BYTE :: s.contents)

/-- Serialization of a step list. -/
def serializeSteps (ss : List RawStep) : Bytes :=
  (ss.map serializeStep).flatten

/-- The structural steps produced by `emitSteps`. -/
def rawSteps (pos : Nat) (newBytes : Bytes) :
    List (Nat × CigarOp) → Nat → List RawStep
  | [], _ => []
  | (num, action) :: rest, localPos0 =>
    let localPos := localPos0 + num
    match action with
    | .eq => rawSteps pos newBytes rest localPos
    | .del =>
      ⟨pos + localPos - num, .del, num, []⟩ ::
        rawSteps pos newBytes rest (localPos - num)
    | .ins =>
      ⟨pos + localPos - num, .ins, num, extract newBytes (localPos - num) localPos⟩ ::
        rawSteps pos newBytes rest localPos
    | .repl =>
      ⟨pos + localPos - num, .repl, num, extract newBytes (localPos - num) localPos⟩ ::
        rawSteps pos newBytes rest localPos

theorem emitSteps_eq_serialize (pos : Nat) (newBytes : Bytes) :
    ∀ (cig : List (Nat × CigarOp)) (localPos0 : Nat),
      emitSteps pos newBytes cig localPos0 =
        serializeSteps (rawSteps pos newBytes cig localPos0) := by
  intro cig
  induction cig with
  | nil => intro l0; rfl
  | cons hd rest ih =>
    intro l0
    obtain ⟨num, action⟩ := hd
    cases action <;>
      simp [emitSteps, rawSteps, serializeSteps, serializeStep, actionByte, ih,
        List.append_assoc]

/-- `serializeStep s ++ c` in split shape. -/
theorem serializeStep_append (s : RawStep) (c : Bytes) :
    serializeStep s ++ c =
      (AT_BYTE :: toDec s.pos) ++ SEP_BYTE ::
        ((actionByte s.op :: toDec s.len) ++ SEP_BYTE :: (s.contents ++ c)) := by
  simp [serializeStep, List.append_assoc]

theorem splitSep2_serializeStep (s : RawStep) (c : Bytes) :
    splitSep2 (serializeStep s ++ c) =
      some (AT_BYTE :: toDec s.pos, actionByte s.op :: toDec s.len,
        s.contents ++ c) := by
  rw [serializeStep_append]
  apply splitSep2_append
  · intro x hx
    rcases List.mem_cons.mp hx with hx | hx
    · subst hx; simp [AT_BYTE, SEP_BYTE]
    · exact toDec_no_sep _ x hx
  · intro x hx
    rcases List.mem_cons.mp hx with hx | hx
    · subst hx
      cases s.op <;> simp [actionByte, SEP_BYTE, DEL_BYTE, INS_BYTE, REPL_BYTE]
    · exact toDec_no_sep _ x hx

/-- Replaying one serialized delete step: scan the original forward to
`p - o`, then skip `n` bytes of the original. -/
theorem applyGo_del (O : Bytes) (q : Nat) (o : Int) (out : Bytes)
    (p n : Nat) (rest : Bytes) :
    applyGo O q o out (serializeStep ⟨p, .del, n, []⟩ ++ rest) =
      applyGo O (max q (min ((p - o).toNat) O.length) + n) (o - n)
        (out ++ extract O q (min ((p - o).toNat) O.length)) rest := by
  have hne : serializeStep ⟨p, CigarOp.del, n, []⟩ ++ rest ≠ [] := by
    simp [serializeStep]
  rw [applyGo, if_neg hne]
  rw [splitSep2_serializeStep]
  simp only [List.drop_one, List.tail_cons, parseNat_toDec, List.take_cons,
    List.take_zero]
  simp [readUpTo, actionByte, DEL_BYTE]

/-- Replaying one serialized insert step: scan the original forward to
`p - o`, then append the step's contents. -/
theorem applyGo_ins (O : Bytes) (q : Nat) (o : Int) (out : Bytes)
    (p n : Nat) (c rest : Bytes) (hc : c.length = n) :
    applyGo O q o out (serializeStep ⟨p, .ins, n, c⟩ ++ rest) =
      applyGo O (max q (min ((p - o).toNat) O.length)) (o + n)
        (out ++ extract O q (min ((p - o).toNat) O.length) ++ c) rest := by
  have hne : serializeStep ⟨p, CigarOp.ins, n, c⟩ ++ rest ≠ [] := by
    simp [serializeStep]
  rw [applyGo, if_neg hne]
  rw [splitSep2_serializeStep]
  simp only [List.drop_one, List.tail_cons, parseNat_toDec, List.take_cons,
    List.take_zero]
  have hlen : ¬ ((c ++ rest).length < n ∧ ([INS_BYTE] : Bytes) ≠ [DEL_BYTE]) := by
    simp [List.length_append, hc]
  have htake : (c ++ rest).take n = c := by
    rw [← hc]; exact List.take_left c rest
  have hdrop : (c ++ rest).drop n = rest := by
    rw [← hc]; exact List.drop_left c rest
  simp [readUpTo, actionByte, hlen, htake, hdrop, INS_BYTE, DEL_BYTE]
  intro hcon
  omega

/-- Replaying one serialized replace step: scan the original forward to
`p - o`, append the contents, and skip `n` bytes of the original. -/
theorem applyGo_repl (O : Bytes) (q : Nat) (o : Int) (out : Bytes)
    (p n : Nat) (c rest : Bytes) (hc : c.length = n) :
    applyGo O q o out (serializeStep ⟨p, .repl, n, c⟩ ++ rest) =
      applyGo O (max q (min ((p - o).toNat) O.length) + n) o
        (out ++ extract O q (min ((p - o).toNat) O.length) ++ c) rest := by
  have hne : serializeStep ⟨p, CigarOp.repl, n, c⟩ ++ rest ≠ [] := by
    simp [serializeStep]
  rw [applyGo, if_neg hne]
  rw [splitSep2_serializeStep]
  simp only [List.drop_one, List.tail_cons, parseNat_toDec, List.take_cons,
    List.take_zero]
  have hlen : ¬ ((c ++ rest).length < n ∧ ([REPL_BYTE] : Bytes) ≠ [DEL_BYTE]) := by
    simp [List.length_append, hc]
  have htake : (c ++ rest).take n = c := by
    rw [← hc]; exact List.take_left c rest
  have hdrop : (c ++ rest).drop n = rest := by
    rw [← hc]; exact List.drop_left c rest
  simp [readUpTo, actionByte, hlen, htake, hdrop, REPL_BYTE, INS_BYTE, DEL_BYTE]
  intro hcon
  omega

/-! ## Slice arithmetic -/

theorem extract_nil_of_eq (xs : Bytes) (a : Nat) : extract xs a a = [] := by
  simp [extract]

theorem extract_zero (xs : Bytes) (b : Nat) : extract xs 0 b = xs.take b := by
  simp [extract]

theorem extract_add (xs : Bytes) (q m k : Nat) (h1 : q ≤ m) (h2 : m ≤ k) :
    extract xs q k = extract xs q m ++ extract xs m k := by
  unfold extract
  have hk : k - q = (m - q) + (k - m) := by omega
  rw [hk, List.take_add]
  congr 1
  rw [List.drop_drop]
  congr 2
  omega

theorem take_append_extract (xs : Bytes) (w m : Nat) (h : w ≤ m) :
    xs.take w ++ extract xs w m = xs.take m := by
  have := extract_add xs 0 w m (Nat.zero_le w) h
  rw [extract_zero, extract_zero] at this
  exact this.symm

theorem extract_to_end (xs : Bytes) (q : Nat) : extract xs q xs.length = xs.drop q := by
  unfold extract
  apply List.take_of_length_le
  simp

theorem extract_of_drop_eq (xs : Bytes) (a n : Nat) (ob t : Bytes)
    (h : xs.drop a = ob ++ t) (hn : n ≤ ob.length) :
    extract xs a (a + n) = ob.take n := by
  unfold extract
  rw [h]
  have h1 : a + n - a = n := by omega
  rw [h1, List.take_append_eq_append_take]
  have h2 : n - ob.length = 0 := by omega
  rw [h2]
  simp

theorem drop_eq_parts_length (xs : Bytes) (a : Nat) (ob t : Bytes)
    (h : xs.drop a = ob ++ t) (ha : a ≤ xs.length) :
    a + ob.length + t.length = xs.length := by
  have := congrArg List.length h
  simp only [List.length_drop, List.length_append] at this
  omega

theorem drop_add_of_drop_eq (xs : Bytes) (a n : Nat) (ob t : Bytes)
    (h : xs.drop a = ob ++ t) (hn : n ≤ ob.length) :
    xs.drop (a + n) = ob.drop n ++ t := by
  have h2 : xs.drop (a + n) = (xs.drop a).drop n := by
    rw [List.drop_drop, Nat.add_comm]
  rw [h2, h, List.drop_append_eq_append_drop]
  have h3 : n - ob.length = 0 := by omega
  rw [h3]
  simp

theorem serializeSteps_nil : serializeSteps [] = [] := rfl

theorem serializeSteps_cons (s : RawStep) (ss : List RawStep) :
    serializeSteps (s :: ss) = serializeStep s ++ serializeSteps ss := by
  simp [serializeSteps]

/-! ## Validity of an edit script (what the source assumes of `edlib`) -/

/-- A cigar is a valid edit script from `origB` to `newB`: `=` consumes
identical segments of both, `D` consumes the original only, `I` the new
only, `X` both (contents taken from the new); at the end both blocks are
fully consumed.  This is the documented behaviour of
`edlib.align(new, orig, task='path')` that `compute_sha_and_diff` relies
on. -/
def cigarOk : List (Nat × CigarOp) → Bytes → Bytes → Bool
  | [], origB, newB => origB.isEmpty && newB.isEmpty
  | (num, action) :: rest, origB, newB =>
    match action with
    | .eq => decide (num ≤ origB.length) && decide (num ≤ newB.length) &&
        decide (origB.take num = newB.take num) &&
        cigarOk rest (origB.drop num) (newB.drop num)
    | .del => decide (num ≤ origB.length) && cigarOk rest (origB.drop num) newB
    | .ins => decide (num ≤ newB.length) && cigarOk rest origB (newB.drop num)
    | .repl => decide (num ≤ origB.length) && decide (num ≤ newB.length) &&
        cigarOk rest (origB.drop num) (newB.drop num)

/-- An aligner is sound when, on any two non-empty blocks, it returns a
valid edit script (first argument is the new block, matching
`edlib.align(new_bytes, orig_bytes)`). -/
def AlignerOk (align : Aligner) : Prop :=
  ∀ origB newB : Bytes, origB ≠ [] → newB ≠ [] →
    cigarOk (align newB origB) origB newB = true

/-- Replaying the serialized steps of one block's valid edit script.
State invariant: `q`/`w` are the original/new positions reached by the
last executed step, the segment between them and the current block start
is matched (`extract O q oAbs = extract N w nAbs`), the output written so
far is exactly `N.take w`, and the wire positions are based at
`pos + b = nAbs` (which holds as long as every earlier new block was
full). -/
theorem applyGo_cigar (O N nbFull : Bytes) :
    ∀ (cig : List (Nat × CigarOp)) (ob nb oT nT : Bytes)
      (b q w oAbs nAbs pos : Nat) (o : Int) (rest : Bytes),
    cigarOk cig ob nb = true →
    O.drop oAbs = ob ++ oT →
    N.drop nAbs = nb ++ nT →
    oAbs ≤ O.length →
    nAbs ≤ N.length →
    q ≤ oAbs →
    w ≤ nAbs →
    oAbs - q = nAbs - w →
    extract O q oAbs = extract N w nAbs →
    o = (w : Int) - (q : Int) →
    nAbs = pos + b →
    nbFull.drop b = nb →
    ∃ qE wE oE,
      applyGo O q o (N.take w)
          (serializeSteps (rawSteps pos nbFull cig b) ++ rest)
        = applyGo O qE oE (N.take wE) rest ∧
      oE = (wE : Int) - (qE : Int) ∧
      qE ≤ oAbs + ob.length ∧ wE ≤ nAbs + nb.length ∧
      (oAbs + ob.length) - qE = (nAbs + nb.length) - wE ∧
      extract O qE (oAbs + ob.length) = extract N wE (nAbs + nb.length) := by
  intro cig
  induction cig with
  | nil =>
    intro ob nb oT nT b q w oAbs nAbs pos o rest
    intro hcig hO hN hoA hnA hq hw hlen hmatch ho hpos hnbF
    simp [cigarOk] at hcig
    obtain ⟨hob, hnb⟩ := hcig
    subst hob
    subst hnb
    refine ⟨q, w, o, ?_, ho, ?_, ?_, ?_, ?_⟩
    · simp [rawSteps, serializeSteps]
    · simpa using hq
    · simpa using hw
    · simpa using hlen
    · simpa using hmatch
  | cons hd rest2 ih =>
    intro ob nb oT nT b q w oAbs nAbs pos o rest
    intro hcig hO hN hoA hnA hq hw hlen hmatch ho hpos hnbF
    obtain ⟨num, action⟩ := hd
    have hOparts := drop_eq_parts_length O oAbs ob oT hO hoA
    have hNparts := drop_eq_parts_length N nAbs nb nT hN hnA
    cases action with
    | eq =>
      simp only [cigarOk, Bool.and_eq_true, decide_eq_true_eq] at hcig
      obtain ⟨⟨⟨hno, hnn⟩, hteq⟩, hrec⟩ := hcig
      have hrs : rawSteps pos nbFull ((num, CigarOp.eq) :: rest2) b
          = rawSteps pos nbFull rest2 (b + num) := by
        simp [rawSteps]
      rw [hrs]
      have hmatch2 : extract O q (oAbs + num) = extract N w (nAbs + num) := by
        rw [extract_add O q oAbs (oAbs + num) hq (by omega),
          extract_add N w nAbs (nAbs + num) hw (by omega), hmatch,
          extract_of_drop_eq O oAbs num ob oT hO hno,
          extract_of_drop_eq N nAbs num nb nT hN hnn, hteq]
      have hnbF2 : nbFull.drop (b + num) = nb.drop num := by
        have e : nbFull.drop (b + num) = (nbFull.drop b).drop num := by
          rw [List.drop_drop, Nat.add_comm]
        rw [e, hnbF]
      obtain ⟨qE, wE, oE, heq2, hoE, h1, h2, h3, h4⟩ :=
        ih (ob.drop num) (nb.drop num) oT nT (b + num) q w
          (oAbs + num) (nAbs + num) pos o rest hrec
          (drop_add_of_drop_eq O oAbs num ob oT hO hno)
          (drop_add_of_drop_eq N nAbs num nb nT hN hnn)
          (by omega) (by omega) (by omega) (by omega) (by omega)
          hmatch2 ho (by omega) hnbF2
      refine ⟨qE, wE, oE, heq2, hoE, ?_, ?_, ?_, ?_⟩
      · simp only [List.length_drop] at h1
        omega
      · simp only [List.length_drop] at h2
        omega
      · simp only [List.length_drop] at h3
        omega
      · simp only [List.length_drop] at h4
        have e1 : oAbs + num + (ob.length - num) = oAbs + ob.length := by omega
        have e2 : nAbs + num + (nb.length - num) = nAbs + nb.length := by omega
        rw [e1, e2] at h4
        exact h4
    | del =>
      simp only [cigarOk, Bool.and_eq_true, decide_eq_true_eq] at hcig
      obtain ⟨hno, hrec⟩ := hcig
      have e1 : pos + (b + num) - num = pos + b := by omega
      have e2 : b + num - num = b := by omega
      have hrs : rawSteps pos nbFull ((num, CigarOp.del) :: rest2) b
          = ⟨pos + b, .del, num, []⟩ :: rawSteps pos nbFull rest2 b := by
        simp [rawSteps, e1, e2]
      rw [hrs, serializeSteps_cons, List.append_assoc, applyGo_del]
      have htoNat : (((pos + b : Nat) : Int) - o).toNat = oAbs := by omega
      have htgt : min (((pos + b : Nat) : Int) - o).toNat O.length = oAbs := by
        rw [htoNat]
        exact Nat.min_eq_left hoA
      rw [htgt, Nat.max_eq_right hq, hmatch, take_append_extract N w nAbs hw]
      obtain ⟨qE, wE, oE, heq2, hoE, h1, h2, h3, h4⟩ :=
        ih (ob.drop num) nb oT nT b (oAbs + num) nAbs
          (oAbs + num) nAbs pos (o - num) rest hrec
          (drop_add_of_drop_eq O oAbs num ob oT hO hno)
          hN (by omega) hnA (by omega) (by omega) (by omega)
          (by rw [extract_nil_of_eq, extract_nil_of_eq])
          (by omega) hpos hnbF
      refine ⟨qE, wE, oE, heq2, hoE, ?_, h2, ?_, ?_⟩
      · simp only [List.length_drop] at h1
        omega
      · simp only [List.length_drop] at h3
        omega
      · simp only [List.length_drop] at h4
        have e3 : oAbs + num + (ob.length - num) = oAbs + ob.length := by omega
        rw [e3] at h4
        exact h4
    | ins =>
      simp only [cigarOk, Bool.and_eq_true, decide_eq_true_eq] at hcig
      obtain ⟨hnn, hrec⟩ := hcig
      have e1 : pos + (b + num) - num = pos + b := by omega
      have hrs : rawSteps pos nbFull ((num, CigarOp.ins) :: rest2) b
          = ⟨pos + b, .ins, num, extract nbFull b (b + num)⟩ ::
              rawSteps pos nbFull rest2 (b + num) := by
        simp [rawSteps, e1]
      have hcval : extract nbFull b (b + num) = nb.take num := by
        unfold extract
        rw [hnbF]
        congr 1
        omega
      have hcl : (extract nbFull b (b + num)).length = num := by
        rw [hcval]
        simp [List.length_take]
        omega
      rw [hrs, serializeSteps_cons, List.append_assoc, applyGo_ins O q o _ _ _ _ _ hcl]
      have htoNat : (((pos + b : Nat) : Int) - o).toNat = oAbs := by omega
      have htgt : min (((pos + b : Nat) : Int) - o).toNat O.length = oAbs := by
        rw [htoNat]
        exact Nat.min_eq_left hoA
      have hcontN : nb.take num = extract N nAbs (nAbs + num) :=
        (extract_of_drop_eq N nAbs num nb nT hN hnn).symm
      rw [htgt, Nat.max_eq_right hq, hmatch, take_append_extract N w nAbs hw,
        hcval, hcontN, take_append_extract N nAbs (nAbs + num) (by omega)]
      have hnbF2 : nbFull.drop (b + num) = nb.drop num := by
        have e : nbFull.drop (b + num) = (nbFull.drop b).drop num := by
          rw [List.drop_drop, Nat.add_comm]
        rw [e, hnbF]
      obtain ⟨qE, wE, oE, heq2, hoE, h1, h2, h3, h4⟩ :=
        ih ob (nb.drop num) oT nT (b + num) oAbs (nAbs + num)
          oAbs (nAbs + num) pos (o + num) rest hrec hO
          (drop_add_of_drop_eq N nAbs num nb nT hN hnn)
          hoA (by omega) (by omega) (by omega) (by omega)
          (by rw [extract_nil_of_eq, extract_nil_of_eq])
          (by omega) (by omega) hnbF2
      refine ⟨qE, wE, oE, heq2, hoE, h1, ?_, ?_, ?_⟩
      · simp only [List.length_drop] at h2
        omega
      · simp only [List.length_drop] at h3
        omega
      · simp only [List.length_drop] at h4
        have e3 : nAbs + num + (nb.length - num) = nAbs + nb.length := by omega
        rw [e3] at h4
        exact h4
    | repl =>
      simp only [cigarOk, Bool.and_eq_true, decide_eq_true_eq] at hcig
      obtain ⟨⟨hno, hnn⟩, hrec⟩ := hcig
      have e1 : pos + (b + num) - num = pos + b := by omega
      have hrs : rawSteps pos nbFull ((num, CigarOp.repl) :: rest2) b
          = ⟨pos + b, .repl, num, extract nbFull b (b + num)⟩ ::
              rawSteps pos nbFull rest2 (b + num) := by
        simp [rawSteps, e1]
      have hcval : extract nbFull b (b + num) = nb.take num := by
        unfold extract
        rw [hnbF]
        congr 1
        omega
      have hcl : (extract nbFull b (b + num)).length = num := by
        rw [hcval]
        simp [List.length_take]
        omega
      rw [hrs, serializeSteps_cons, List.append_assoc, applyGo_repl O q o _ _ _ _ _ hcl]
      have htoNat : (((pos + b : Nat) : Int) - o).toNat = oAbs := by omega
      have htgt : min (((pos + b : Nat) : Int) - o).toNat O.length = oAbs := by
        rw [htoNat]
        exact Nat.min_eq_left hoA
      have hcontN : nb.take num = extract N nAbs (nAbs + num) :=
        (extract_of_drop_eq N nAbs num nb nT hN hnn).symm
      rw [htgt, Nat.max_eq_right hq, hmatch, take_append_extract N w nAbs hw,
        hcval, hcontN, take_append_extract N nAbs (nAbs + num) (by omega)]
      have hnbF2 : nbFull.drop (b + num) = nb.drop num := by
        have e : nbFull.drop (b + num) = (nbFull.drop b).drop num := by
          rw [List.drop_drop, Nat.add_comm]
        rw [e, hnbF]
      obtain ⟨qE, wE, oE, heq2, hoE, h1, h2, h3, h4⟩ :=
        ih (ob.drop num) (nb.drop num) oT nT (b + num) (oAbs + num) (nAbs + num)
          (oAbs + num) (nAbs + num) pos o rest hrec
          (drop_add_of_drop_eq O oAbs num ob oT hO hno)
          (drop_add_of_drop_eq N nAbs num nb nT hN hnn)
          (by omega) (by omega) (by omega) (by omega) (by omega)
          (by rw [extract_nil_of_eq, extract_nil_of_eq])
          (by omega) (by omega) hnbF2
      refine ⟨qE, wE, oE, heq2, hoE, ?_, ?_, ?_, ?_⟩
      · simp only [List.length_drop] at h1
        omega
      · simp only [List.length_drop] at h2
        omega
      · simp only [List.length_drop] at h3
        omega
      · simp only [List.length_drop] at h4
        have e3 : oAbs + num + (ob.length - num) = oAbs + ob.length := by omega
        have e4 : nAbs + num + (nb.length - num) = nAbs + nb.length := by omega
        rw [e3, e4] at h4
        exact h4

theorem readerBlocks_eq_nil_iff (blockSize : Nat) (content : Bytes) :
    readerBlocks blockSize content = [] ↔ (blockSize = 0 ∨ content = []) := by
  constructor
  · intro h
    by_contra hcon
    push_neg at hcon
    rw [readerBlocks_cons blockSize content hcon.1 hcon.2] at h
    simp at h
  · intro h
    rw [readerBlocks]
    simp [h]

theorem readerBlocks_dropLast_full_aux (blockSize : Nat) :
    ∀ (n : Nat) (content : Bytes), content.length ≤ n →
      ∀ x ∈ (readerBlocks blockSize content).dropLast, x.length = blockSize := by
  intro n
  induction n with
  | zero =>
    intro content hn x hx
    have hc : content = [] := List.length_eq_zero.mp (Nat.le_zero.mp hn)
    subst hc
    simp [readerBlocks_nil] at hx
  | succ m ih =>
    intro content hn x hx
    by_cases h : blockSize = 0 ∨ content = []
    · rw [(readerBlocks_eq_nil_iff blockSize content).mpr h] at hx
      simp at hx
    · push_neg at h
      obtain ⟨h0, hc⟩ := h
      rw [readerBlocks_cons blockSize content h0 hc] at hx
      by_cases hrest : readerBlocks blockSize (content.drop blockSize) = []
      · rw [hrest] at hx
        simp at hx
      · have hdrop_ne : content.drop blockSize ≠ [] := by
          intro hdn
          exact hrest ((readerBlocks_eq_nil_iff blockSize _).mpr (Or.inr hdn))
        have hlong : blockSize < content.length := by
          by_contra hle
          push_neg at hle
          exact hdrop_ne (List.drop_eq_nil_of_le hle)
        rw [List.dropLast_cons_of_ne_nil hrest] at hx
        rcases List.mem_cons.mp hx with hx | hx
        · subst hx
          simp [List.length_take]
          omega
        · have hlt : (content.drop blockSize).length ≤ m := by
            have : 0 < content.length := List.length_pos.mpr hc
            simp only [List.length_drop]
            omega
          exact ih (content.drop blockSize) hlt x hx

/-- All reader blocks except possibly the last are full. -/
theorem readerBlocks_dropLast_full (blockSize : Nat) (content : Bytes)
    (x : Bytes) (hx : x ∈ (readerBlocks blockSize content).dropLast) :
    x.length = blockSize :=
  readerBlocks_dropLast_full_aux blockSize content.length content (Nat.le_refl _) x hx

theorem mem_dropLast_cons {α : Type} (a : α) (l : List α) (x : α)
    (hx : x ∈ l.dropLast) : x ∈ (a :: l).dropLast := by
  cases l with
  | nil => simp at hx
  | cons y ys =>
    rw [List.dropLast_cons_of_ne_nil (by simp)]
    exact List.mem_cons_of_mem a hx

/-- Replaying the whole diff stream: outer induction over the
`zip_longest` pairs, chaining the single-block lemma.  The hypothesis
`obs.length ≤ nbs.length` is the numBlocks side condition under which
the emitted wire positions stay correct. -/
theorem applyGo_pairs (align : Aligner) (hal : AlignerOk align)
    (O N : Bytes) (bs : Nat) :
    ∀ (nbs obs : List Bytes) (oAbs nAbs q w : Nat) (o : Int) (pos : Nat)
      (rest : Bytes),
    O.drop oAbs = obs.flatten →
    N.drop nAbs = nbs.flatten →
    obs.length ≤ nbs.length →
    (∀ x ∈ obs, x ≠ []) →
    (∀ x ∈ nbs, x ≠ []) →
    (∀ x ∈ nbs.dropLast, x.length = bs) →
    oAbs ≤ O.length →
    nAbs ≤ N.length →
    q ≤ oAbs →
    w ≤ nAbs →
    oAbs - q = nAbs - w →
    extract O q oAbs = extract N w nAbs →
    o = (w : Int) - (q : Int) →
    (pos = nAbs ∨ (obs = [] ∧ nbs = [])) →
    ∃ qE wE oE,
      applyGo O q o (N.take w)
          (computeDiffGo align bs (zipLongest obs nbs) pos ++ rest)
        = applyGo O qE oE (N.take wE) rest ∧
      O.drop qE = N.drop wE := by
  intro nbs
  induction nbs with
  | nil =>
    intro obs oAbs nAbs q w o pos rest
    intro hObs hNbs hlenle hObsNe hNbsNe hNbsFull hoA hnA hq hw hlen hmatch ho hpos
    have hobs : obs = [] := List.length_eq_zero.mp (Nat.le_zero.mp hlenle)
    subst hobs
    simp only [List.flatten_nil] at hObs hNbs
    have hoAbs : oAbs = O.length := by
      have := congrArg List.length hObs
      simp only [List.length_drop, List.length_nil] at this
      omega
    have hnAbs : nAbs = N.length := by
      have := congrArg List.length hNbs
      simp only [List.length_drop, List.length_nil] at this
      omega
    refine ⟨q, w, o, ?_, ?_⟩
    · simp [zipLongest, computeDiffGo]
    · subst hoAbs
      subst hnAbs
      rw [← extract_to_end O q, ← extract_to_end N w]
      exact hmatch
  | cons nb nbs2 ihn =>
    intro obs oAbs nAbs q w o pos rest
    intro hObs hNbs hlenle hObsNe hNbsNe hNbsFull hoA hnA hq hw hlen hmatch ho hpos
    have hpos2 : pos = nAbs := by
      rcases hpos with hpos | ⟨_, hcon⟩
      · exact hpos
      · simp at hcon
    have hnbNe : nb ≠ [] := hNbsNe nb (List.mem_cons_self nb nbs2)
    have hNparts : nAbs + nb.length + nbs2.flatten.length = N.length := by
      have hNbs2 : N.drop nAbs = nb ++ nbs2.flatten := by
        rw [hNbs]; simp
      have := drop_eq_parts_length N nAbs nb nbs2.flatten hNbs2 hnA
      omega
    have hNdrop2 : N.drop (nAbs + nb.length) = nbs2.flatten := by
      have hNbs2 : N.drop nAbs = nb ++ nbs2.flatten := by
        rw [hNbs]; simp
      have := drop_add_of_drop_eq N nAbs nb.length nb nbs2.flatten hNbs2 (Nat.le_refl _)
      simpa using this
    have hposNext : pos + bs = nAbs + nb.length ∨ (nbs2 = []) := by
      by_cases h2 : nbs2 = []
      · exact Or.inr h2
      · left
        have : nb ∈ (nb :: nbs2).dropLast := by
          rw [List.dropLast_cons_of_ne_nil h2]
          exact List.mem_cons_self nb nbs2.dropLast
        have := hNbsFull nb this
        omega
    cases obs with
    | nil =>
      simp only [List.flatten_nil] at hObs
      rw [show zipLongest ([] : List Bytes) (nb :: nbs2)
          = (none, some nb) :: zipLongest [] nbs2 from by simp [zipLongest]]
      rw [show computeDiffGo align bs ((none, some nb) :: zipLongest [] nbs2) pos
          = emitSteps pos nb (pairSteps align (none, some nb)) 0 ++
              computeDiffGo align bs (zipLongest [] nbs2) (pos + bs) from rfl]
      rw [show pairSteps align (none, some nb) = [(nb.length, .ins)] from rfl]
      rw [emitSteps_eq_serialize, List.append_assoc]
      have hcig : cigarOk [(nb.length, CigarOp.ins)] [] nb = true := by
        simp [cigarOk]
      obtain ⟨qE, wE, oE, heq2, hoE, h1, h2, h3, h4⟩ :=
        applyGo_cigar O N nb [(nb.length, CigarOp.ins)] [] nb [] nbs2.flatten
          0 q w oAbs nAbs pos o _ hcig (by simpa using hObs)
          (by rw [hNbs]; simp) hoA hnA hq hw hlen hmatch ho (by omega) (by simp)
      rw [heq2]
      simp only [List.length_nil, Nat.add_zero] at h1 h3 h4
      obtain ⟨qF, wF, oF, heq3, hend⟩ :=
        ihn [] oAbs (nAbs + nb.length) qE wE oE (pos + bs) rest
          (by simpa using hObs) hNdrop2 (by simp)
          (by simp) (fun x hx => hNbsNe x (List.mem_cons_of_mem nb hx))
          (fun x hx => hNbsFull x (mem_dropLast_cons nb nbs2 x hx))
          hoA (by omega) h1 h2 h3 h4 hoE
          (by
            rcases hposNext with hp | hp
            · exact Or.inl hp
            · exact Or.inr ⟨rfl, hp⟩)
      exact ⟨qF, wF, oF, by rw [heq3], hend⟩
    | cons ob obs2 =>
      have hobNe : ob ≠ [] := hObsNe ob (List.mem_cons_self ob obs2)
      have hOparts : oAbs + ob.length + obs2.flatten.length = O.length := by
        have hObs2 : O.drop oAbs = ob ++ obs2.flatten := by
          rw [hObs]; simp
        have := drop_eq_parts_length O oAbs ob obs2.flatten hObs2 hoA
        omega
      have hOdrop2 : O.drop (oAbs + ob.length) = obs2.flatten := by
        have hObs2 : O.drop oAbs = ob ++ obs2.flatten := by
          rw [hObs]; simp
        have := drop_add_of_drop_eq O oAbs ob.length ob obs2.flatten hObs2 (Nat.le_refl _)
        simpa using this
      rw [show zipLongest (ob :: obs2) (nb :: nbs2)
          = (some ob, some nb) :: zipLongest obs2 nbs2 from by simp [zipLongest]]
      rw [show computeDiffGo align bs ((some ob, some nb) :: zipLongest obs2 nbs2) pos
          = emitSteps pos nb (pairSteps align (some ob, some nb)) 0 ++
              computeDiffGo align bs (zipLongest obs2 nbs2) (pos + bs) from rfl]
      rw [show pairSteps align (some ob, some nb) = align nb ob from rfl]
      rw [emitSteps_eq_serialize, List.append_assoc]
      obtain ⟨qE, wE, oE, heq2, hoE, h1, h2, h3, h4⟩ :=
        applyGo_cigar O N nb (align nb ob) ob nb obs2.flatten nbs2.flatten
          0 q w oAbs nAbs pos o _ (hal ob nb hobNe hnbNe)
          (by rw [hObs]; simp) (by rw [hNbs]; simp)
          hoA hnA hq hw hlen hmatch ho (by omega) (by simp)
      rw [heq2]
      have hlenle2 : obs2.length ≤ nbs2.length := by
        simp only [List.length_cons] at hlenle
        omega
      have hpos3 : pos + bs = nAbs + nb.length ∨ (obs2 = [] ∧ nbs2 = []) := by
        rcases hposNext with hp | hp
        · exact Or.inl hp
        · right
          refine ⟨?_, hp⟩
          subst hp
          simpa using hlenle2
      obtain ⟨qF, wF, oF, heq3, hend⟩ :=
        ihn obs2 (oAbs + ob.length) (nAbs + nb.length) qE wE oE (pos + bs) rest
          hOdrop2 hNdrop2 hlenle2
          (fun x hx => hObsNe x (List.mem_cons_of_mem ob hx))
          (fun x hx => hNbsNe x (List.mem_cons_of_mem nb hx))
          (fun x hx => hNbsFull x (mem_dropLast_cons nb nbs2 x hx))
          (by omega) (by omega) h1 h2 h3 h4 hoE hpos3
      exact ⟨qF, wF, oF, by rw [heq3], hend⟩

/-- A trivially correct aligner used to instantiate the theorems: delete
the whole original block, insert the whole new block. -/
def fullReplaceAligner : Aligner :=
  fun newB origB => [(origB.length, .del), (newB.length, .ins)]

theorem fullReplaceAligner_ok : AlignerOk fullReplaceAligner := by
  intro origB newB hoNe hnNe
  simp [fullReplaceAligner, cigarOk, List.drop_length]

/-- C1 (amended; see the counterexample below for why the unconditional
round-trip fails): whenever the new file spans at least as many
reader blocks as the original, replaying the computed diff reproduces the
new file exactly, and the returned SHA is the hash of exactly the new
file's bytes. -/
theorem diff_roundtrip_amended (shaHex : Bytes → List Nat) (align : Aligner)
    (hal : AlignerOk align) (bs : Nat) (hbs : 0 < bs) (O N : Bytes)
    (hblocks : numBlocks bs O ≤ numBlocks bs N) :
    apply_diff O (compute_sha_and_diff shaHex align bs O N).2 = .ok N ∧
    (compute_sha_and_diff shaHex align bs O N).1 = shaHex N := by
  have hbs0 : bs ≠ 0 := by omega
  constructor
  · show apply_diff O (computeDiff align bs O N) = .ok N
    obtain ⟨qE, wE, oE, heq, hend⟩ :=
      applyGo_pairs align hal O N bs (readerBlocks bs N) (readerBlocks bs O)
        0 0 0 0 0 0 []
        (by simpa using (readerBlocks_join bs hbs0 O).symm)
        (by simpa using (readerBlocks_join bs hbs0 N).symm)
        hblocks
        (readerBlocks_ne_nil bs O)
        (readerBlocks_ne_nil bs N)
        (readerBlocks_dropLast_full bs N)
        (Nat.zero_le _) (Nat.zero_le _) (Nat.le_refl _) (Nat.le_refl _)
        rfl (by rw [extract_nil_of_eq, extract_nil_of_eq]) (by simp)
        (Or.inl rfl)
    rw [List.append_nil] at heq
    simp only [List.take_zero] at heq
    unfold apply_diff
    rw [show computeDiff align bs O N
        = computeDiffGo align bs
            (zipLongest (readerBlocks bs O) (readerBlocks bs N)) 0 from rfl]
    rw [heq]
    rw [show applyGo O qE oE (N.take wE) [] = .ok (qE, oE, N.take wE) from by
      rw [applyGo]; simp]
    show Except.ok (N.take wE ++ extract O qE O.length) = Except.ok N
    rw [extract_to_end, hend, List.take_append_drop]
  · simp only [compute_sha_and_diff]
    rw [readerBlocks_join bs hbs0 N]

theorem toDec_zero : toDec 0 = [48] := by rw [toDec]; norm_num

theorem toDec_one : toDec 1 = [49] := by rw [toDec]; norm_num

theorem readerBlocks_one_two : readerBlocks 1 [97, 98] = [[97], [98]] := by
  rw [readerBlocks_cons 1 [97, 98] (by omega) (by simp)]
  norm_num
  rw [readerBlocks_cons 1 [98] (by omega) (by simp)]
  norm_num
  exact readerBlocks_nil 1

/-- The diff bytes the source computes for original `b'ab'`, new `b''`
with block size 1: `@0|D1|@1|D1|`. -/
theorem computeDiff_ab_empty :
    computeDiff fullReplaceAligner 1 [97, 98] [] =
      serializeStep ⟨0, .del, 1, []⟩ ++ (serializeStep ⟨1, .del, 1, []⟩ ++ []) := by
  rw [show computeDiff fullReplaceAligner 1 [97, 98] []
      = computeDiffGo fullReplaceAligner 1
          (zipLongest (readerBlocks 1 [97, 98]) (readerBlocks 1 [])) 0 from rfl]
  rw [readerBlocks_one_two, readerBlocks_nil]
  simp [zipLongest, computeDiffGo, pairSteps, emitSteps, serializeStep,
    serializeSteps, actionByte, toDec_zero, toDec_one]

/-- C1 counterexample: for `O = b'ab'`, `N = b''` (block size 1), the diff
computed by `compute_sha_and_diff` replays to `b'b'`, not `N`: the
`pos += block_size` bookkeeping drifts past the end of the shorter new
file, so `apply_diff` re-copies original bytes that should have been
deleted. -/
theorem diff_roundtrip_counterexample :
    apply_diff [97, 98] (computeDiff fullReplaceAligner 1 [97, 98] []) = .ok [98] ∧
    apply_diff [97, 98] (computeDiff fullReplaceAligner 1 [97, 98] []) ≠
      .ok ([] : Bytes) := by
  have hval : apply_diff [97, 98] (computeDiff fullReplaceAligner 1 [97, 98] [])
      = .ok [98] := by
    rw [computeDiff_ab_empty]
    unfold apply_diff
    rw [applyGo_del]
    norm_num [extract, Int.toNat_ofNat]
    rw [show serializeStep ⟨1, CigarOp.del, 1, []⟩
        = serializeStep ⟨1, CigarOp.del, 1, []⟩ ++ [] from (List.append_nil _).symm]
    rw [applyGo_del]
    norm_num [extract, Int.toNat_ofNat]
    rw [show (Int.toNat 2) = 2 from rfl]
    norm_num
    rw [show applyGo [97, 98] 3 (-2) [98] [] = .ok (3, -2, [98]) from by
      rw [applyGo]; simp]
    simp [extract]
  exact ⟨hval, by rw [hval]; simp⟩

/-- Closed witness instance for the amended round trip. -/
theorem diff_roundtrip_amended_witness :
    (0 < 1 ∧ AlignerOk fullReplaceAligner ∧
      numBlocks 1 [97] ≤ numBlocks 1 [98, 99]) ∧
    (apply_diff [97]
        (compute_sha_and_diff (fun b => b) fullReplaceAligner 1 [97] [98, 99]).2
      = .ok [98, 99] ∧
     (compute_sha_and_diff (fun b => b) fullReplaceAligner 1 [97] [98, 99]).1
      = [98, 99]) := by
  have h97 : readerBlocks 1 [97] = [[97]] := by
    rw [readerBlocks_cons 1 [97] (by omega) (by simp)]
    norm_num
    exact readerBlocks_nil 1
  have h9899 : readerBlocks 1 [98, 99] = [[98], [99]] := by
    rw [readerBlocks_cons 1 [98, 99] (by omega) (by simp)]
    norm_num
    rw [readerBlocks_cons 1 [99] (by omega) (by simp)]
    norm_num
    exact readerBlocks_nil 1
  have hnb : numBlocks 1 [97] ≤ numBlocks 1 [98, 99] := by
    unfold numBlocks
    rw [h97, h9899]
    simp
  exact ⟨⟨Nat.one_pos, fullReplaceAligner_ok, hnb⟩,
    diff_roundtrip_amended (fun b => b) fullReplaceAligner fullReplaceAligner_ok
      1 Nat.one_pos [97] [98, 99] hnb⟩

/-! ## C9: the default block size -/

theorem readerBlocks_single_of_le (content : Bytes) (hne : content ≠ [])
    (hle : content.length ≤ BLOCK_SIZE) :
    readerBlocks BLOCK_SIZE content = [content] := by
  rw [readerBlocks_cons BLOCK_SIZE content (by decide) hne]
  rw [List.take_of_length_le hle, List.drop_eq_nil_of_le hle, readerBlocks_nil]

/-- C9 counterexample: the default block size in io.py is
`BLOCK_SIZE = (1 << 30)` (1 GiB), not 64 KiB; a 100000-byte file is read
as a single 100000-byte block, which exceeds 65536. -/
theorem default_block_size_counterexample :
    BLOCK_SIZE ≠ 65536 ∧
    ∃ b ∈ readerBlocks BLOCK_SIZE (List.replicate 100000 0), 65536 < b.length := by
  have hne : List.replicate 100000 (0 : Nat) ≠ [] := by
    apply List.ne_nil_of_length_pos
    rw [List.length_replicate]
    decide
  have hlen : (List.replicate 100000 (0 : Nat)).length ≤ BLOCK_SIZE := by
    rw [List.length_replicate]
    decide
  constructor
  · decide
  · refine ⟨List.replicate 100000 0, ?_, ?_⟩
    · rw [readerBlocks_single_of_le (List.replicate 100000 0) hne hlen]
      exact List.mem_singleton.mpr rfl
    · rw [List.length_replicate]
      decide

/-- C9 (amended): every `IOIter` constructed without an explicit
`block_size` uses `BLOCK_SIZE`, its `reader()` yields blocks of at most
that size, and the default is `2^30` bytes (1 GiB), not 64 KiB. -/
theorem default_block_size_amended :
    BLOCK_SIZE = 2 ^ 30 ∧
    ∀ (content b : Bytes), b ∈ readerBlocks BLOCK_SIZE content →
      b.length ≤ BLOCK_SIZE := by
  constructor
  · decide
  · intro content b hb
    exact readerBlocks_length_le BLOCK_SIZE content b hb

/-- Closed witness instance for the amended C9 statement. -/
theorem default_block_size_amended_witness :
    [0] ∈ readerBlocks BLOCK_SIZE [0] ∧ ([0] : Bytes).length ≤ BLOCK_SIZE := by
  have hm : [0] ∈ readerBlocks BLOCK_SIZE [0] := by
    rw [readerBlocks_single_of_le [0] (by simp) (by simp [BLOCK_SIZE])]
    simp
  exact ⟨hm, default_block_size_amended.2 [0] [0] hm⟩

/-! ## C2: the crypto envelope (crypto.py)

`compress_and_encrypt` / `decrypt_and_unpack` stream blocks through
(optionally) a zlib compressor, (optionally) AES-256-CTR, and an
HMAC-SHA256.  The external pieces are modelled as parameters:

* the zlib streaming pair as a `ZlibModel` (stateful `compress`/`flush`
  and `decompress`/`unused_data`), constrained by `ZlibOk` — the
  documented behaviour that inflating the deflated stream, in any
  chunking, returns the original bytes;
* AES-CTR as XOR against a keystream `Keystream` derived from key and
  nonce (exactly what CTR mode is); the byte position is the counter;
* HMAC-SHA256 as an arbitrary function of key and message. -/

/-- crypto.py line 28: `AES_KEY_SIZE = 32`. -/
def AES_KEY_SIZE : Nat := 32

/-- crypto.py line 29: `AES_BLOCK_SIZE = 16`. -/
def AES_BLOCK_SIZE : Nat := 16

/-- The per-backup-set options consulted by the envelope and the store
(options.py `OptionsDict`).  `discard_diff_percentage` (a float consulted
only inside the diff computation) and `max_manifest_versions` are not
needed by the modelled claims and are omitted; the diff-size decision is
abstracted as an explicit outcome parameter in the store model. -/
structure OptionsDict where
  use_compression : Bool
  use_encryption : Bool
  skip_diff_patterns_match : Bool
deriving DecidableEq, Repr

/-- A model of the zlib streaming compressor/decompressor objects. -/
structure ZlibModel where
  CSt : Type
  cinit : CSt
  compress : CSt → Bytes → CSt × Bytes
  flush : CSt → Bytes
  DSt : Type
  dinit : DSt
  decompress : DSt → Bytes → Option (DSt × Bytes)
  unusedData : DSt → Bytes

/-- The keystream of AES-256-CTR under a given key and nonce: CTR-mode
encryption and decryption are both XOR against this stream. -/
abbrev Keystream := Bytes → Bytes → Nat → Nat

/-- XOR a byte string against the keystream starting at position `pos`. -/
def xorBytes (ksf : Nat → Nat) : Nat → Bytes → Bytes
  | _, [] => []
  | pos, x :: xs => Nat.xor x (ksf pos) :: xorBytes ksf (pos + 1) xs

/-- What the compressor emits for a block stream, ending with `flush`. -/
def zDeflateGo (z : ZlibModel) : z.CSt → List Bytes → Bytes
  | cst, [] => z.flush cst
  | cst, b :: bs =>
    let pr := z.compress cst b
    pr.2 ++ zDeflateGo z pr.1 bs

/-- `zlib.compressobj()` run over a block stream from its initial state. -/
def zDeflate (z : ZlibModel) (blocks : List Bytes) : Bytes :=
  zDeflateGo z z.cinit blocks

/-- The decompression loop shape of `decrypt_and_unpack`: feed
`carry ++ chunk` (where `carry` is the previous `unused_data`), emit each
output block, and flush a trailing carry at the end.  `none` models
`zlib.error`. -/
def zInflateGo (z : ZlibModel) : z.DSt → Bytes → List Bytes → Option Bytes
  | dst, carry, [] =>
    if carry = [] then some []
    else (z.decompress dst carry).map (fun p => p.2)
  | dst, carry, c :: cs =>
    match z.decompress dst (carry ++ c) with
    | none => none
    | some (dst2, blockOut) =>
      (zInflateGo z dst2 (z.unusedData dst2) cs).map (fun r => blockOut ++ r)

/-- `zlib.decompressobj()` run over a chunk stream from its initial state. -/
def zInflateChunks (z : ZlibModel) (chunks : List Bytes) : Option Bytes :=
  zInflateGo z z.dinit [] chunks

/-- The behaviour of the real zlib pair that the source relies on: a fresh
decompressor has no `unused_data`, and inflating any chunking of a
deflated stream returns the original bytes. -/
def ZlibOk (z : ZlibModel) : Prop :=
  z.unusedData z.dinit = [] ∧
  ∀ (inBlocks chunks : List Bytes),
    chunks.flatten = zDeflate z inBlocks →
    zInflateChunks z chunks = some inBlocks.flatten

/-- The loop of `compress_and_encrypt` (crypto.py lines 62-76): each input
block goes through `zip_fn` (the compressor when `use_compression`, else
identity), then `encrypt_fn` (CTR when `use_encryption`, else identity),
and is written out; after the input is exhausted, `last_block` yields the
compressor flush (or `b''`), which is also encrypted and written. -/
def ceGo (z : ZlibModel) (ksf : Nat → Nat) (useC useE : Bool) :
    z.CSt → Nat → List Bytes → Bytes
  | cst, pos, [] =>
    let lastB := if useC then z.flush cst else []
    if useE then xorBytes ksf pos lastB else lastB
  | cst, pos, b :: bs =>
    let zr := if useC then z.compress cst b else (cst, b)
    let eb := if useE then xorBytes ksf pos zr.2 else zr.2
    eb ++ ceGo z ksf useC useE zr.1 (pos + eb.length) bs

/-- `compress_and_encrypt` (crypto.py lines 38-79): returns the bytes
written to `output_file` and the HMAC tag (`b''` when encryption is
off).  `key, nonce = key_pair[:32], key_pair[32:]`; the HMAC is keyed by
`key` and covers every encrypted block in order. -/
def compress_and_encrypt (z : ZlibModel) (ks : Keystream)
    (hmacFn : Bytes → Bytes → Bytes) (blockSize : Nat)
    (P kp : Bytes) (opts : OptionsDict) : Bytes × Bytes :=
  let key := kp.take AES_KEY_SIZE
  let nonce := kp.drop AES_KEY_SIZE
  let C := ceGo z (ks key nonce) opts.use_compression opts.use_encryption
    z.cinit 0 (readerBlocks blockSize P)
  (C, if opts.use_encryption then hmacFn key C else [])

/-- Failures of `decrypt_and_unpack`. -/
inductive CryptoError
  | backupCorrupted
  | zlibError
deriving DecidableEq, Repr

/-- The loop of `decrypt_and_unpack` (crypto.py lines 111-126): per input
chunk, decrypt, append to the carried `decrypted_data`, run `unzip_fn`
(decompressor or identity), emit its output, and set the carry to
`decompress_obj.unused_data` (which is consulted even when compression is
off, where the untouched object always reports `b''`); a non-empty carry
after the loop is decompressed once more. -/
def duGo (z : ZlibModel) (ksf : Nat → Nat) (useC useE : Bool) :
    z.DSt → Nat → Bytes → List Bytes → Option Bytes
  | dst, _, carry, [] =>
    if carry = [] then some []
    else if useC then (z.decompress dst carry).map (fun p => p.2)
    else some carry
  | dst, pos, carry, c :: cs =>
    let dc := if useE then xorBytes ksf pos c else c
    let data := carry ++ dc
    if useC then
      match z.decompress dst data with
      | none => none
      | some (dst2, blockOut) =>
        (duGo z ksf useC useE dst2 (pos + dc.length) (z.unusedData dst2) cs).map
          (fun r => blockOut ++ r)
    else
      (duGo z ksf useC useE dst (pos + dc.length) (z.unusedData dst) cs).map
        (fun r => data ++ r)

/-- `decrypt_and_unpack` (crypto.py lines 82-132): split the key pair as
`key, nonce, signature = kp[:32], kp[32:48], kp[48:]`, run the loop over
the input chunks (updating the HMAC with each *encrypted* chunk), then,
when encryption is on, `hmac.verify(signature)`; a mismatch raises
`BackupCorruptedError`. -/
def decrypt_and_unpack (z : ZlibModel) (ks : Keystream)
    (hmacFn : Bytes → Bytes → Bytes) (blockSize : Nat)
    (C kp : Bytes) (opts : OptionsDict) : Except CryptoError Bytes :=
  let key := kp.take AES_KEY_SIZE
  let nonce := extract kp AES_KEY_SIZE (AES_KEY_SIZE + AES_BLOCK_SIZE)
  let signature := kp.drop (AES_KEY_SIZE + AES_BLOCK_SIZE)
  match duGo z (ks key nonce) opts.use_compression opts.use_encryption
      z.dinit 0 [] (readerBlocks blockSize C) with
  | none => .error .zlibError
  | some P2 =>
    if opts.use_encryption then
      if hmacFn key (readerBlocks blockSize C).flatten = signature then .ok P2
      else .error .backupCorrupted
    else .ok P2

theorem xorBytes_length (ksf : Nat → Nat) :
    ∀ (pos : Nat) (b : Bytes), (xorBytes ksf pos b).length = b.length := by
  intro pos b
  induction b generalizing pos with
  | nil => rfl
  | cons x xs ih => simp [xorBytes, ih]

theorem xorBytes_append (ksf : Nat → Nat) :
    ∀ (a : Bytes) (pos : Nat) (b : Bytes),
      xorBytes ksf pos (a ++ b) = xorBytes ksf pos a ++ xorBytes ksf (pos + a.length) b := by
  intro a
  induction a with
  | nil => intro pos b; simp [xorBytes]
  | cons x xs ih =>
    intro pos b
    simp only [List.cons_append, xorBytes, List.append_eq]
    rw [ih]
    have e : pos + 1 + xs.length = pos + (xs.length + 1) := by omega
    simp only [List.length_cons, e]

theorem xorBytes_involution (ksf : Nat → Nat) :
    ∀ (pos : Nat) (b : Bytes), xorBytes ksf pos (xorBytes ksf pos b) = b := by
  intro pos b
  induction b generalizing pos with
  | nil => rfl
  | cons x xs ih =>
    simp only [xorBytes, ih]
    congr 1
    exact Nat.xor_cancel_right _ _

/-- The decrypted images of a chunk stream, with a running CTR position. -/
def decChunks (ksf : Nat → Nat) : Nat → List Bytes → List Bytes
  | _, [] => []
  | pos, c :: cs => xorBytes ksf pos c :: decChunks ksf (pos + c.length) cs

theorem decChunks_flatten (ksf : Nat → Nat) :
    ∀ (chunks : List Bytes) (pos : Nat),
      (decChunks ksf pos chunks).flatten = xorBytes ksf pos chunks.flatten := by
  intro chunks
  induction chunks with
  | nil => intro pos; simp [decChunks, xorBytes]
  | cons c cs ih =>
    intro pos
    simp [decChunks, ih, xorBytes_append]

/-- The plaintext stream the envelope writes before encryption: the
deflated stream when compressing (the final `last_block` flush included),
the raw blocks otherwise (its `last_block` is `b''`). -/
def plainStream (z : ZlibModel) (useC : Bool) (cst : z.CSt) (blocks : List Bytes) : Bytes :=
  if useC then zDeflateGo z cst blocks else blocks.flatten

theorem ceGo_eq (z : ZlibModel) (ksf : Nat → Nat) (useC useE : Bool) :
    ∀ (blocks : List Bytes) (cst : z.CSt) (pos : Nat),
      ceGo z ksf useC useE cst pos blocks =
        (if useE then xorBytes ksf pos (plainStream z useC cst blocks)
         else plainStream z useC cst blocks) := by
  intro blocks
  induction blocks with
  | nil =>
    intro cst pos
    cases useC <;> cases useE <;> simp [ceGo, plainStream, zDeflateGo, xorBytes]
  | cons b bs ih =>
    intro cst pos
    cases useC <;> cases useE <;>
      simp [ceGo, plainStream, zDeflateGo, ih, xorBytes_append, xorBytes_length]

theorem duGo_eq_inflate (z : ZlibModel) (ksf : Nat → Nat) (useE : Bool) :
    ∀ (chunks : List Bytes) (dst : z.DSt) (pos : Nat) (carry : Bytes),
      duGo z ksf true useE dst pos carry chunks =
        zInflateGo z dst carry (if useE then decChunks ksf pos chunks else chunks) := by
  intro chunks
  induction chunks with
  | nil =>
    intro dst pos carry
    cases useE <;> simp [duGo, zInflateGo, decChunks]
  | cons c cs ih =>
    intro dst pos carry
    cases useE with
    | false =>
      simp only [duGo, if_true, if_false, Bool.false_eq_true, zInflateGo]
      cases z.decompress dst (carry ++ c) with
      | none => simp
      | some pr => simp [ih]
    | true =>
      simp only [duGo, if_true, zInflateGo, decChunks]
      cases z.decompress dst (carry ++ xorBytes ksf pos c) with
      | none => simp
      | some pr => simp [ih, xorBytes_length]

theorem duGo_no_compression (z : ZlibModel) (ksf : Nat → Nat) (useE : Bool)
    (dst : z.DSt) (hun : z.unusedData dst = []) :
    ∀ (chunks : List Bytes) (pos : Nat) (carry : Bytes),
      duGo z ksf false useE dst pos carry chunks =
        some (carry ++ (if useE then decChunks ksf pos chunks else chunks).flatten) := by
  intro chunks
  induction chunks with
  | nil =>
    intro pos carry
    by_cases hc : carry = []
    · subst hc
      cases useE <;> simp [duGo, decChunks]
    · cases useE <;> simp [duGo, hc, decChunks]
  | cons c cs ih =>
    intro pos carry
    cases useE <;>
      simp [duGo, decChunks, ih, hun, xorBytes_length]

/-- C2: envelope round-trip.  For every plaintext, every 48-byte key pair
(when encryption is on; the key material is unused otherwise), and all
four (compression, encryption) flag combinations, decrypting-and-unpacking
the sealed output with the key pair extended by the returned HMAC tag (the
80-byte record the manifest stores, spec section 3.2) recovers exactly the
plaintext. -/
theorem envelope_roundtrip (z : ZlibModel) (hz : ZlibOk z) (ks : Keystream)
    (hmacFn : Bytes → Bytes → Bytes) (bs1 bs2 : Nat)
    (hbs1 : 0 < bs1) (hbs2 : 0 < bs2) (P kp : Bytes) (opts : OptionsDict)
    (hkp : opts.use_encryption = true →
      kp.length = AES_KEY_SIZE + AES_BLOCK_SIZE) :
    decrypt_and_unpack z ks hmacFn bs2
      (compress_and_encrypt z ks hmacFn bs1 P kp opts).1
      (kp ++ (compress_and_encrypt z ks hmacFn bs1 P kp opts).2) opts
    = .ok P := by
  have hbs1n : bs1 ≠ 0 := by omega
  have hbs2n : bs2 ≠ 0 := by omega
  obtain ⟨hzu, hzrt⟩ := hz
  set blocks := readerBlocks bs1 P with hblocks
  have hPjoin : blocks.flatten = P := readerBlocks_join bs1 hbs1n P
  set key := kp.take AES_KEY_SIZE with hkey
  set nonce := kp.drop AES_KEY_SIZE with hnonce
  set ksf := ks key nonce with hksf
  cases hE : opts.use_encryption with
  | true =>
    have hkplen : kp.length = AES_KEY_SIZE + AES_BLOCK_SIZE := hkp hE
    set C := ceGo z ksf opts.use_compression opts.use_encryption
      z.cinit 0 blocks with hC
    have hCdef : (compress_and_encrypt z ks hmacFn bs1 P kp opts).1 = C := rfl
    have htag : (compress_and_encrypt z ks hmacFn bs1 P kp opts).2
        = hmacFn key C := by
      simp [compress_and_encrypt, hE, hC, hksf, hkey, hnonce]
    set tag := hmacFn key C with htagv
    have hkey2 : (kp ++ tag).take AES_KEY_SIZE = key := by
      rw [List.take_append_of_le_length (by omega)]
    have hnonce2 : extract (kp ++ tag) AES_KEY_SIZE (AES_KEY_SIZE + AES_BLOCK_SIZE)
        = nonce := by
      unfold extract
      rw [List.drop_append_of_le_length (by omega)]
      have e : AES_KEY_SIZE + AES_BLOCK_SIZE - AES_KEY_SIZE = AES_BLOCK_SIZE := by omega
      rw [e, List.take_append_of_le_length (by simp; omega),
        List.take_of_length_le (by simp; omega)]
    have hsig : (kp ++ tag).drop (AES_KEY_SIZE + AES_BLOCK_SIZE) = tag := by
      rw [List.drop_append_of_le_length (by omega),
        List.drop_eq_nil_of_le (by omega)]
      simp
    set chunks := readerBlocks bs2 C with hchunks
    have hCjoin : chunks.flatten = C := readerBlocks_join bs2 hbs2n C
    rw [show decrypt_and_unpack z ks hmacFn bs2
        (compress_and_encrypt z ks hmacFn bs1 P kp opts).1
        (kp ++ (compress_and_encrypt z ks hmacFn bs1 P kp opts).2) opts
      = decrypt_and_unpack z ks hmacFn bs2 C (kp ++ tag) opts from by
        rw [hCdef, htag]]
    simp only [decrypt_and_unpack, hkey2, hnonce2, hsig, ← hksf, ← hchunks]
    cases hCo : opts.use_compression with
    | true =>
      have hCval : C = xorBytes ksf 0 (zDeflate z blocks) := by
        rw [hC, ceGo_eq, hCo, hE]
        simp [plainStream, zDeflate]
      have hdu : duGo z ksf true opts.use_encryption
          z.dinit 0 [] chunks = some P := by
        rw [hE, duGo_eq_inflate]
        simp only [if_true]
        have hfl : (decChunks ksf 0 chunks).flatten = zDeflate z blocks := by
          rw [decChunks_flatten, hCjoin, hCval, xorBytes_involution]
        have := hzrt blocks (decChunks ksf 0 chunks) hfl
        rw [zInflateChunks] at this
        rw [this, hPjoin]
      rw [hdu]
      simp [hE, hCjoin]
    | false =>
      have hCval : C = xorBytes ksf 0 P := by
        rw [hC, ceGo_eq, hCo, hE]
        simp [plainStream, hPjoin]
      have hdu : duGo z ksf false opts.use_encryption
          z.dinit 0 [] chunks = some P := by
        rw [hE, duGo_no_compression z ksf true z.dinit hzu]
        simp only [if_true, List.nil_append]
        rw [decChunks_flatten, hCjoin, hCval, xorBytes_involution]
      rw [hdu]
      simp [hE, hCjoin]
  | false =>
    set C := ceGo z ksf opts.use_compression opts.use_encryption
      z.cinit 0 blocks with hC
    have hCdef : (compress_and_encrypt z ks hmacFn bs1 P kp opts).1 = C := rfl
    have htag : (compress_and_encrypt z ks hmacFn bs1 P kp opts).2 = [] := by
      simp [compress_and_encrypt, hE, hC, hksf, hkey, hnonce]
    set chunks := readerBlocks bs2 C with hchunks
    have hCjoin : chunks.flatten = C := readerBlocks_join bs2 hbs2n C
    rw [show decrypt_and_unpack z ks hmacFn bs2
        (compress_and_encrypt z ks hmacFn bs1 P kp opts).1
        (kp ++ (compress_and_encrypt z ks hmacFn bs1 P kp opts).2) opts
      = decrypt_and_unpack z ks hmacFn bs2 C kp opts from by
        rw [hCdef, htag, List.append_nil]]
    simp only [decrypt_and_unpack, ← hkey, ← hnonce, ← hksf, ← hchunks]
    cases hCo : opts.use_compression with
    | true =>
      have hCval : C = zDeflate z blocks := by
        rw [hC, ceGo_eq, hCo, hE]
        simp [plainStream, zDeflate]
      have hdu : ∀ f : Nat → Nat, duGo z f true opts.use_encryption
          z.dinit 0 [] chunks = some P := by
        intro f
        rw [hE, duGo_eq_inflate]
        simp only [Bool.false_eq_true, if_false]
        have hfl : chunks.flatten = zDeflate z blocks := by rw [hCjoin, hCval]
        have := hzrt blocks chunks hfl
        rw [zInflateChunks] at this
        rw [this, hPjoin]
      rw [hdu]
      simp [hE]
    | false =>
      have hCval : C = P := by
        rw [hC, ceGo_eq, hCo, hE]
        simp [plainStream, hPjoin]
      have hdu : ∀ f : Nat → Nat, duGo z f false opts.use_encryption
          z.dinit 0 [] chunks = some P := by
        intro f
        rw [hE, duGo_no_compression z f false z.dinit hzu]
        simp only [Bool.false_eq_true, if_false, List.nil_append]
        rw [hCjoin, hCval]
      rw [hdu]
      simp [hE]

/-- The identity compressor model: a concrete `ZlibModel` instance. -/
def idZlib : ZlibModel where
  CSt := Unit
  cinit := ()
  compress := fun _ b => ((), b)
  flush := fun _ => []
  DSt := Unit
  dinit := ()
  decompress := fun _ b => some ((), b)
  unusedData := fun _ => []

theorem idZlib_deflate : ∀ (blocks : List Bytes) (st : Unit),
    zDeflateGo idZlib st blocks = blocks.flatten := by
  intro blocks
  induction blocks with
  | nil => intro st; rfl
  | cons b bs ih =>
    intro st
    show b ++ zDeflateGo idZlib () bs = (b :: bs).flatten
    rw [ih]
    simp

theorem idZlib_inflate : ∀ (chunks : List Bytes) (st : Unit) (carry : Bytes),
    zInflateGo idZlib st carry chunks = some (carry ++ chunks.flatten) := by
  intro chunks
  induction chunks with
  | nil =>
    intro st carry
    by_cases hc : carry = []
    · subst hc; simp [zInflateGo]
    · simp [zInflateGo, hc, idZlib]
  | cons c cs ih =>
    intro st carry
    show ((zInflateGo idZlib () [] cs).map fun r => (carry ++ c) ++ r)
      = some (carry ++ (c :: cs).flatten)
    rw [ih]
    simp

theorem idZlib_ok : ZlibOk idZlib := by
  constructor
  · rfl
  · intro inBlocks chunks h
    rw [zInflateChunks, idZlib_inflate]
    rw [zDeflate, idZlib_deflate] at h
    simp [h]

/-- Closed witness instance for the envelope round trip (compression and
encryption both enabled, identity compressor model, zero keystream). -/
theorem envelope_roundtrip_witness :
    ZlibOk idZlib ∧ (0 : Nat) < 1 ∧
    ((OptionsDict.mk true true false).use_encryption = true →
      (List.replicate 48 0).length = AES_KEY_SIZE + AES_BLOCK_SIZE) ∧
    decrypt_and_unpack idZlib (fun _ _ _ => 0) (fun _ _ => [1]) 1
      (compress_and_encrypt idZlib (fun _ _ _ => 0) (fun _ _ => [1]) 1
        [5, 6, 7] (List.replicate 48 0) (OptionsDict.mk true true false)).1
      (List.replicate 48 0 ++
        (compress_and_encrypt idZlib (fun _ _ _ => 0) (fun _ _ => [1]) 1
          [5, 6, 7] (List.replicate 48 0) (OptionsDict.mk true true false)).2)
      (OptionsDict.mk true true false)
    = .ok [5, 6, 7] := by
  have hlen : (OptionsDict.mk true true false).use_encryption = true →
      (List.replicate 48 (0 : Nat)).length = AES_KEY_SIZE + AES_BLOCK_SIZE := by
    intro _
    rw [List.length_replicate]
    rfl
  exact ⟨idZlib_ok, Nat.one_pos, hlen,
    envelope_roundtrip idZlib idZlib_ok (fun _ _ _ => 0) (fun _ _ => [1])
      1 1 Nat.one_pos Nat.one_pos [5, 6, 7] (List.replicate 48 0)
      (OptionsDict.mk true true false) hlen⟩

/-! ## Manifest (manifest.py)

The manifest is a SQLite database with a `manifest` table (one row per
committed file version; a NULL `sha` is a tombstone) and a `base_shas`
adjunct table (`sha UNIQUE, base_sha, base_key_pair UNIQUE`).  Queries
natural-left-join the two on `sha` (NULL joins nothing).  SQL `ORDER BY
commit_timestamp` does not guarantee an order among equal timestamps; the
model resolves ties by insertion order, which is what SQLite does for an
append-only table scanned without contrary indexes. -/

/-- A row of the `manifest` table.  The tombstone insert
(`insert into manifest (abs_file_name, commit_timestamp)`) leaves every
other column NULL. -/
structure MRow where
  abs_file_name : String
  sha : Option String
  uid : Option Nat
  gid : Option Nat
  mode : Option Nat
  key_pair : Option Bytes
  commit_timestamp : Nat
deriving DecidableEq, Repr

/-- A row of the `base_shas` table. -/
structure BRow where
  sha : String
  base_sha : String
  base_key_pair : Bytes
deriving DecidableEq, Repr

/-- The open manifest database plus its `changed` flag. -/
structure Manifest where
  rows : List MRow
  baseShas : List BRow
  changed : Bool
deriving DecidableEq, Repr

/-- What `ManifestEntry.from_row` builds from a joined row. -/
structure Entry where
  abs_file_name : String
  sha : Option String
  base_sha : Option String
  uid : Option Nat
  gid : Option Nat
  mode : Option Nat
  key_pair : Option Bytes
  base_key_pair : Option Bytes
  commit_timestamp : Nat
deriving DecidableEq, Repr

/-- The Python `ManifestEntry` constructed by the store paths (all of
`sha`, `uid`, `gid`, `mode`, `key_pair` present; the class asserts
`bool(base_sha) == bool(base_key_pair)`). -/
structure ManifestEntry where
  abs_file_name : String
  sha : String
  base_sha : Option String
  uid : Nat
  gid : Nat
  mode : Nat
  key_pair : Bytes
  base_key_pair : Option Bytes
deriving DecidableEq, Repr

/-- `manifest natural left join base_shas`: the base columns come from
the unique `base_shas` row with the same (non-NULL) `sha`. -/
def joinBase (bss : List BRow) (r : MRow) : Entry :=
  let b := bss.find? (fun b => some b.sha = r.sha)
  { abs_file_name := r.abs_file_name
    sha := r.sha
    base_sha := b.map (fun x => x.base_sha)
    uid := r.uid
    gid := r.gid
    mode := r.mode
    key_pair := r.key_pair
    base_key_pair := b.map (fun x => x.base_key_pair)
    commit_timestamp := r.commit_timestamp }

/-- The last row of `order by commit_timestamp` (`rows[-1]`): the row
with the greatest timestamp, breaking ties towards the latest inserted. -/
def latestRow (rs : List MRow) : Option MRow :=
  rs.foldl
    (fun acc r =>
      match acc with
      | none => some r
      | some a => if a.commit_timestamp ≤ r.commit_timestamp then some r else some a)
    none

/-- `Manifest.get_entry` (manifest.py lines 101-127): most recent row for
the file at or before `now` (`timestamp or int(time.time())`), joined;
`None` when no such row exists. -/
def Manifest.get_entry (m : Manifest) (abs_file_name : String) (now : Nat) :
    Option Entry :=
  (latestRow (m.rows.filter
    (fun r => r.abs_file_name == abs_file_name && decide (r.commit_timestamp ≤ now)))).map
    (joinBase m.baseShas)

/-- `Manifest.get_entries_by_sha` (manifest.py lines 129-135): all joined
rows whose SHA starts with the given pattern characters
(`sha like '{sha}%'`; NULL never matches LIKE; the pattern — a hex
digest — holds no wildcard, so LIKE is a character-wise prefix test). -/
def Manifest.get_entries_by_sha (m : Manifest) (sha : String) : List Entry :=
  (m.rows.filter
    (fun r => match r.sha with
      | none => false
      | some s => sha.data.isPrefixOf s.data)).map (joinBase m.baseShas)

/-- `Manifest.insert_or_update` (manifest.py lines 190-221): append a row
with `commit_timestamp = now`; then `insert or replace` the adjunct row
when the entry has a base (SQLite OR REPLACE deletes any row conflicting
on either unique column, `sha` or `base_key_pair`, before inserting),
else delete any adjunct row for this SHA; commit sets `changed`.  The
class invariant makes `base_key_pair` present whenever `base_sha` is;
`getD []` covers the impossible missing case. -/
def Manifest.insert_or_update (m : Manifest) (e : ManifestEntry) (now : Nat) :
    Manifest :=
  let row : MRow :=
    ⟨e.abs_file_name, some e.sha, some e.uid, some e.gid, some e.mode,
      some e.key_pair, now⟩
  let bss :=
    match e.base_sha with
    | some bsha =>
      (m.baseShas.filter
        (fun b => ¬(b.sha = e.sha) ∧ ¬(some b.base_key_pair = e.base_key_pair))) ++
        [⟨e.sha, bsha, e.base_key_pair.getD []⟩]
    | none => m.baseShas.filter (fun b => ¬(b.sha = e.sha))
  { rows := m.rows ++ [row], baseShas := bss, changed := true }

/-- `Manifest.delete` (manifest.py lines 223-241): when `get_entry`
returns nothing, log and no-op (without setting `changed`); otherwise
append a tombstone row (`insert into manifest (abs_file_name,
commit_timestamp)` — every other column NULL) at `now`. -/
def Manifest.delete (m : Manifest) (abs_file_name : String) (now : Nat) :
    Manifest :=
  match m.get_entry abs_file_name now with
  | none => m
  | some _ =>
    { rows := m.rows ++ [⟨abs_file_name, none, none, none, none, none, now⟩]
      baseShas := m.baseShas
      changed := true }

/-- A fresh manifest (`Manifest(...)` on a new file runs
`_create_manifest_tables`, leaving both tables empty). -/
def emptyManifest : Manifest := ⟨[], [], false⟩

/-! ## C7: the schema created by `_create_manifest_tables` -/

/-- A DDL statement, as far as the claims need it. -/
inductive SqlStmt
  | createTable (name : String) (columns : List String)
  | createIndex (uniq : Bool) (name : String) (table : String) (columns : List String)
deriving DecidableEq, Repr

/-- `Manifest._create_manifest_tables` (manifest.py lines 266-294): the
two tables and exactly two indexes, `mfst_idx` on
`(abs_file_name, commit_timestamp)` and `sha_idx` on `(sha)` — neither
declared UNIQUE, and no index named `mfst_unique_idx` at all. -/
def create_manifest_tables : List SqlStmt :=
  [ .createTable "manifest"
      ["abs_file_name", "sha", "uid", "gid", "mode", "key_pair", "commit_timestamp"],
    .createTable "base_shas" ["sha", "base_sha", "base_key_pair"],
    .createIndex false "mfst_idx" "manifest" ["abs_file_name", "commit_timestamp"],
    .createIndex false "sha_idx" "manifest" ["sha"] ]

/-- Whether a DDL statement is a UNIQUE index declaration. -/
def SqlStmt.isUniqueIndex : SqlStmt → Bool
  | .createIndex true _ _ _ => true
  | _ => false

/-- Name of an index statement (empty for tables). -/
def SqlStmt.indexName : SqlStmt → String
  | .createIndex _ n _ _ => n
  | .createTable _ _ => ""

/-- C7: the schema of a fresh manifest declares *no* unique index (in
particular none on `(abs_file_name, sha, uid, gid, mode)` and none named
`mfst_unique_idx`, which the repo's own tests drop and verify relies on),
and consequently inserting a row identical to an existing row in all five
of those columns is *not* rejected: both rows land in the table. -/
theorem manifest_unique_index_missing :
    (create_manifest_tables.filter SqlStmt.isUniqueIndex = [] ∧
     create_manifest_tables.filter (fun s => s.indexName == "mfst_unique_idx") = []) ∧
    (((emptyManifest.insert_or_update
        ⟨"/foo", "12345678", none, 1000, 2000, 33188, [1, 2], none⟩ 100).insert_or_update
        ⟨"/foo", "12345678", none, 1000, 2000, 33188, [1, 2], none⟩ 101).rows.length = 2) := by
  constructor
  · constructor <;> rfl
  · rfl

/-! ## C10: `Manifest.delete` on already-deleted files -/

/-- C10: `delete` no-ops only when the manifest holds no row at all for
the path (then `get_entry` is `None`); when the most recent row is a
tombstone, `get_entry` still returns a (truthy) entry whose `sha` is
NULL, so `delete` appends one more tombstone row — each repeat grows the
history. -/
theorem manifest_delete_not_idempotent (m : Manifest) (name : String) (now : Nat)
    (hwf : ∀ r ∈ m.rows, r.commit_timestamp ≤ now) :
    ((m.rows.filter (fun r => r.abs_file_name == name)) = [] →
      m.delete name now = m) ∧
    (∀ e, m.get_entry name now = some e → e.sha = none →
      (m.delete name now).rows =
        m.rows ++ [⟨name, none, none, none, none, none, now⟩]) := by
  constructor
  · intro hempty
    have hnone : m.get_entry name now = none := by
      unfold Manifest.get_entry
      have hfe : m.rows.filter
          (fun r => r.abs_file_name == name && decide (r.commit_timestamp ≤ now)) = [] := by
        rw [List.filter_eq_nil]
        intro r hr
        have := (List.filter_eq_nil.mp hempty) r hr
        simp only [Bool.and_eq_true, not_and, Bool.not_eq_true] at this ⊢
        intro hcon
        rw [hcon] at this
        simp at this
      rw [hfe]
      rfl
    unfold Manifest.delete
    rw [hnone]
  · intro e hsome _
    unfold Manifest.delete
    rw [hsome]

/-- Closed witness: a manifest whose only row for `/f` is a tombstone
gets a second tombstone from `delete`; a path with no rows is a no-op. -/
theorem manifest_delete_witness :
    ((Manifest.mk [⟨"/f", none, none, none, none, none, 1⟩] [] true).delete "/f" 5).rows =
      [⟨"/f", none, none, none, none, none, 1⟩] ++
        [⟨"/f", none, none, none, none, none, 5⟩] ∧
    (Manifest.mk [⟨"/f", none, none, none, none, none, 1⟩] [] true).delete "/g" 5 =
      Manifest.mk [⟨"/f", none, none, none, none, none, 1⟩] [] true := by
  have hwf : ∀ r ∈ (Manifest.mk [⟨"/f", none, none, none, none, none, 1⟩] [] true).rows,
      r.commit_timestamp ≤ 5 := by
    intro r hr
    simp only [List.mem_singleton] at hr
    subst hr
    decide
  constructor
  · exact (manifest_delete_not_idempotent
      (Manifest.mk [⟨"/f", none, none, none, none, none, 1⟩] [] true) "/f" 5 hwf).2
      ⟨"/f", none, none, none, none, none, none, none, 1⟩ (by rfl) rfl
  · exact (manifest_delete_not_idempotent
      (Manifest.mk [⟨"/f", none, none, none, none, none, 1⟩] [] true) "/g" 5 hwf).1
      (by rfl)

/-! ## Backup store engine (stores/backup_store.py)

`save_if_new` and its helpers are modelled as a function from store state
to (result, event trace, new manifest state).  The externally visible
effects the claims speak about are the events:

* `saveBlob sha` — a completed `self.save(...)` of a content blob to the
  backend (the upload);
* `insertRow e` — `self.manifest.insert_or_update(e)`.

Abstracted inputs (nondeterministic or external in the source) are
explicit parameters: the fresh key pair from `os.urandom`
(`generate_key_pair` returns `b''` when encryption is off), the HMAC
signature returned by `save`, the regex outcome of
`regex_search_list(abs_file_name, skip_diff_patterns)`, whether
`compute_diff` raises `DiffTooLargeException` (the
`discard_diff_percentage` decision), and whether the backend `_save`
raises.  A raised backend error is the `.error ()` result: it propagates
out of `save_if_new` before any manifest insert. -/

/-- Observable store events. -/
inductive StoreEvent
  | saveBlob (sha : String)
  | insertRow (e : ManifestEntry)
deriving DecidableEq, Repr

/-- The uid/gid/mode and content SHA of the file being considered
(`compute_sha(new_file)` and the `IOIter` stat properties). -/
structure FileInfo where
  sha : String
  uid : Nat
  gid : Nat
  mode : Nat
deriving DecidableEq, Repr

/-- `BackupStore._find_existing_entry_data` (backup_store.py lines
365-375): the key pair, base SHA and base key pair of the first manifest
entry with this SHA, if any. -/
def find_existing_entry_data (m : Manifest) (sha : String) :
    Option (Bytes × Option String × Option Bytes) :=
  match m.get_entries_by_sha sha with
  | [] => none
  | e :: _ => some (e.key_pair.getD [], e.base_sha, e.base_key_pair)

/-- `BackupStore._write_copy` (backup_store.py lines 271-302): reuse an
existing entry's data when one with the same SHA exists (unless
`force_copy`); otherwise generate a key pair and, when not `dry_run`,
save the blob and extend the key pair with the returned HMAC. -/
def write_copy (m : Manifest) (abs_file_name new_sha : String) (f : FileInfo)
    (force_copy dry_run : Bool) (genKp sig : Bytes) (backendOk : Bool) :
    Except Unit (ManifestEntry × List StoreEvent) :=
  let entry_data := if force_copy then none else find_existing_entry_data m new_sha
  match entry_data with
  | some (kp, bsha, bkp) =>
    .ok (⟨abs_file_name, new_sha, bsha, f.uid, f.gid, f.mode, kp, bkp⟩, [])
  | none =>
    if dry_run then
      .ok (⟨abs_file_name, new_sha, none, f.uid, f.gid, f.mode, genKp, none⟩, [])
    else if backendOk then
      .ok (⟨abs_file_name, new_sha, none, f.uid, f.gid, f.mode, genKp ++ sig, none⟩,
        [.saveBlob new_sha])
    else .error ()

/-- `BackupStore._write_diff` (backup_store.py lines 304-363): dedup
fast path first; else pick the base (the current entry's base if it is
itself a diff, the current entry otherwise), compute the diff (falling
back to `_write_copy` on `DiffTooLargeException`), and when not
`dry_run` save the diff blob and extend the key pair. -/
def write_diff (m : Manifest) (abs_file_name new_sha : String) (curr : Entry)
    (f : FileInfo) (dry_run : Bool) (genKp sig : Bytes)
    (diffTooLarge backendOk : Bool) :
    Except Unit (ManifestEntry × List StoreEvent) :=
  match find_existing_entry_data m new_sha with
  | some (kp, bsha, bkp) =>
    .ok (⟨abs_file_name, new_sha, bsha, f.uid, f.gid, f.mode, kp, bkp⟩, [])
  | none =>
    let bsha := match curr.base_sha with
      | some cb => some cb
      | none => curr.sha
    let bkp := match curr.base_sha with
      | some _ => curr.base_key_pair
      | none => curr.key_pair
    if diffTooLarge then
      write_copy m abs_file_name new_sha f false dry_run genKp sig backendOk
    else if dry_run then
      .ok (⟨abs_file_name, new_sha, bsha, f.uid, f.gid, f.mode, genKp, bkp⟩, [])
    else if backendOk then
      .ok (⟨abs_file_name, new_sha, bsha, f.uid, f.gid, f.mode, genKp ++ sig, bkp⟩,
        [.saveBlob new_sha])
    else .error ()

/-- The result of one `save_if_new` call. -/
structure SifResult where
  result : Except Unit (Option ManifestEntry)
  trace : List StoreEvent
  manifest : Manifest
deriving Repr

/-- The decision part of `BackupStore.save_if_new` (backup_store.py lines
116-172): decide copy / diff / metadata-only / no-op from the current
manifest entry and the file's SHA.  The branch order mirrors the source:
`force_copy or not curr_entry or not curr_entry.sha` → copy;
`new_sha != curr_entry.sha` → copy when a skip-diff pattern matches, else
diff; changed uid/gid/mode → metadata row reusing the current entry's
SHA and key pairs; otherwise nothing. -/
def save_if_new_decide (m : Manifest) (abs_file_name : String) (f : FileInfo)
    (now : Nat) (dry_run force_copy skipDiffMatch : Bool)
    (genKp sig : Bytes) (diffTooLarge backendOk : Bool) :
    Except Unit (Option ManifestEntry × List StoreEvent) :=
  match m.get_entry abs_file_name now with
  | none =>
    (write_copy m abs_file_name f.sha f force_copy dry_run genKp sig backendOk).map
      (fun p => (some p.1, p.2))
  | some curr =>
    if force_copy ∨ curr.sha = none then
      (write_copy m abs_file_name f.sha f force_copy dry_run genKp sig backendOk).map
        (fun p => (some p.1, p.2))
    else if some f.sha ≠ curr.sha then
      if skipDiffMatch then
        (write_copy m abs_file_name f.sha f false dry_run genKp sig backendOk).map
          (fun p => (some p.1, p.2))
      else
        (write_diff m abs_file_name f.sha curr f dry_run genKp sig
          diffTooLarge backendOk).map (fun p => (some p.1, p.2))
    else if some f.uid ≠ curr.uid ∨ some f.gid ≠ curr.gid ∨ some f.mode ≠ curr.mode then
      .ok (some ⟨abs_file_name, f.sha, curr.base_sha, f.uid, f.gid, f.mode,
        curr.key_pair.getD [], curr.base_key_pair⟩, [])
    else
      .ok (none, [])

/-- `BackupStore.save_if_new` (backup_store.py lines 116-176): run the
decision, then — when an entry was produced and not `dry_run` — insert it
into the manifest (`self.manifest.insert_or_update(new_entry)`); a raised
backend error propagates with no insert. -/
def save_if_new (m : Manifest) (abs_file_name : String) (f : FileInfo)
    (now : Nat) (dry_run force_copy skipDiffMatch : Bool)
    (genKp sig : Bytes) (diffTooLarge backendOk : Bool) : SifResult :=
  match save_if_new_decide m abs_file_name f now dry_run force_copy skipDiffMatch
      genKp sig diffTooLarge backendOk with
  | .error () => ⟨.error (), [], m⟩
  | .ok (none, tr) => ⟨.ok none, tr, m⟩
  | .ok (some e, tr) =>
    if dry_run then ⟨.ok (some e), tr, m⟩
    else ⟨.ok (some e), tr ++ [.insertRow e], m.insert_or_update e now⟩

/-! ## C4: blob uploads precede manifest inserts -/

/-- Every `insertRow` event in a trace comes after every `saveBlob`
event. -/
def savesBeforeInserts (tr : List StoreEvent) : Prop :=
  ∀ (i j : Nat) (e : ManifestEntry) (s : String),
    tr.get? i = some (.insertRow e) → tr.get? j = some (.saveBlob s) → j < i

theorem sbi_nil : savesBeforeInserts [] := by
  intro i j e s hi _
  simp [List.get?] at hi

theorem sbi_save (s0 : String) : savesBeforeInserts [.saveBlob s0] := by
  intro i j e s hi _
  match i with
  | 0 => simp [List.get?] at hi
  | n + 1 => simp [List.get?] at hi

theorem sbi_insert (e0 : ManifestEntry) : savesBeforeInserts [.insertRow e0] := by
  intro i j e s _ hj
  match j with
  | 0 => simp [List.get?] at hj
  | n + 1 => simp [List.get?] at hj

theorem sbi_save_insert (s0 : String) (e0 : ManifestEntry) :
    savesBeforeInserts [.saveBlob s0, .insertRow e0] := by
  intro i j e s hi hj
  match i, j with
  | 0, _ => simp [List.get?] at hi
  | _, 1 => simp [List.get?] at hj
  | n + 1, n2 + 2 => simp [List.get?] at hj
  | 1, 0 => omega
  | n + 2, 0 => simp [List.get?] at hi

theorem write_copy_trace (m : Manifest) (abs_file_name new_sha : String)
    (f : FileInfo) (fc dr : Bool) (genKp sig : Bytes) (bOk : Bool) :
    ∀ e tr, write_copy m abs_file_name new_sha f fc dr genKp sig bOk = .ok (e, tr) →
      tr = [] ∨ tr = [.saveBlob new_sha] := by
  intro e tr h
  unfold write_copy at h
  rcases hfd : find_existing_entry_data m new_sha with _ | ⟨kp, bsha, bkp⟩ <;>
    cases fc <;> cases dr <;> cases bOk <;>
    simp [hfd] at h
  all_goals
    first
      | exact Or.inl h.2.symm
      | exact Or.inl h.2
      | exact Or.inr h.2.symm
      | exact Or.inr h.2

theorem write_diff_trace (m : Manifest) (abs_file_name new_sha : String)
    (curr : Entry) (f : FileInfo) (dr : Bool) (genKp sig : Bytes)
    (dTL bOk : Bool) :
    ∀ e tr, write_diff m abs_file_name new_sha curr f dr genKp sig dTL bOk
        = .ok (e, tr) →
      tr = [] ∨ tr = [.saveBlob new_sha] := by
  intro e tr h
  unfold write_diff at h
  rcases hfd : find_existing_entry_data m new_sha with _ | ⟨kp, bsha2, bkp2⟩ <;>
    rw [hfd] at h
  · cases dTL with
    | true =>
      have h2 : write_copy m abs_file_name new_sha f false dr genKp sig bOk
          = .ok (e, tr) := by simpa using h
      exact write_copy_trace m abs_file_name new_sha f false dr genKp sig bOk e tr h2
    | false =>
      cases dr <;> cases bOk <;> simp at h
      all_goals
        first
          | exact Or.inl h.2.symm
          | exact Or.inl h.2
          | exact Or.inr h.2.symm
          | exact Or.inr h.2
  · simp at h
    first
      | exact Or.inl h.2.symm
      | exact Or.inl h.2

/-- Mapping a write-copy / write-diff result into the decision result
preserves the trace shapes. -/
theorem map_write_shape (w : Except Unit (ManifestEntry × List StoreEvent))
    (sha0 : String)
    (hw : ∀ e tr, w = .ok (e, tr) → tr = [] ∨ tr = [.saveBlob sha0]) :
    w.map (fun p => (some p.1, p.2)) = .error () ∨
    w.map (fun p => (some p.1, p.2)) = .ok (none, []) ∨
    ∃ e, w.map (fun p => (some p.1, p.2)) = .ok (some e, []) ∨
      w.map (fun p => (some p.1, p.2)) = .ok (some e, [.saveBlob sha0]) := by
  cases w with
  | error u => cases u; exact Or.inl rfl
  | ok p =>
    obtain ⟨e, tr⟩ := p
    rcases hw e tr rfl with htr | htr <;> subst htr
    · exact Or.inr (Or.inr ⟨e, Or.inl rfl⟩)
    · exact Or.inr (Or.inr ⟨e, Or.inr rfl⟩)

/-- The decision result is a backend error, nothing, or one entry with
at most one upload preceding it. -/
theorem save_if_new_decide_shape (m : Manifest) (abs_file_name : String)
    (f : FileInfo) (now : Nat) (dry_run force_copy skipDiffMatch : Bool)
    (genKp sig : Bytes) (diffTooLarge backendOk : Bool) :
    save_if_new_decide m abs_file_name f now dry_run force_copy skipDiffMatch
        genKp sig diffTooLarge backendOk = .error () ∨
    save_if_new_decide m abs_file_name f now dry_run force_copy skipDiffMatch
        genKp sig diffTooLarge backendOk = .ok (none, []) ∨
    ∃ e, save_if_new_decide m abs_file_name f now dry_run force_copy skipDiffMatch
        genKp sig diffTooLarge backendOk = .ok (some e, []) ∨
      save_if_new_decide m abs_file_name f now dry_run force_copy skipDiffMatch
        genKp sig diffTooLarge backendOk = .ok (some e, [.saveBlob f.sha]) := by
  unfold save_if_new_decide
  split
  · exact map_write_shape _ f.sha
      (write_copy_trace m abs_file_name f.sha f force_copy dry_run genKp sig backendOk)
  · split
    · exact map_write_shape _ f.sha
        (write_copy_trace m abs_file_name f.sha f force_copy dry_run genKp sig backendOk)
    · split
      · split
        · exact map_write_shape _ f.sha
            (write_copy_trace m abs_file_name f.sha f false dry_run genKp sig backendOk)
        · rename_i curr hg hnc hne hskip
          exact map_write_shape _ f.sha
            (write_diff_trace m abs_file_name f.sha curr f dry_run genKp sig
              diffTooLarge backendOk)
      · split
        · exact Or.inr (Or.inr ⟨_, Or.inl rfl⟩)
        · exact Or.inr (Or.inl rfl)

/-- C4: in every execution of `save_if_new` — all branches, dry-run or
not, backend failure or not — every manifest insert event comes strictly
after every blob upload event, so a committed row's blob is already in
the store when the row commits. -/
theorem save_if_new_upload_before_insert (m : Manifest) (abs_file_name : String)
    (f : FileInfo) (now : Nat) (dry_run force_copy skipDiffMatch : Bool)
    (genKp sig : Bytes) (diffTooLarge backendOk : Bool) :
    savesBeforeInserts
      (save_if_new m abs_file_name f now dry_run force_copy skipDiffMatch
        genKp sig diffTooLarge backendOk).trace := by
  unfold save_if_new
  rcases save_if_new_decide_shape m abs_file_name f now dry_run force_copy
      skipDiffMatch genKp sig diffTooLarge backendOk with hs | hs | ⟨e, hs | hs⟩ <;>
    rw [hs]
  · exact sbi_nil
  · exact sbi_nil
  · by_cases hd : dry_run = true
    · simp only [hd, if_true]
      exact sbi_nil
    · simp only [Bool.not_eq_true] at hd
      simp only [hd, Bool.false_eq_true, if_false, List.nil_append]
      exact sbi_insert e
  · by_cases hd : dry_run = true
    · simp only [hd, if_true]
      exact sbi_save (f.sha)
    · simp only [Bool.not_eq_true] at hd
      simp only [hd, Bool.false_eq_true, if_false]
      exact sbi_save_insert (f.sha) e

/-- Closed witness for C4: a fresh file on an empty manifest uploads the
blob (event 0) and then inserts the row (event 1). -/
theorem save_if_new_upload_before_insert_witness :
    (save_if_new emptyManifest "/a" ⟨"ab", 0, 0, 420⟩ 7 false false false
        [1] [2] false true).trace.get? 1
      = some (.insertRow ⟨"/a", "ab", none, 0, 0, 420, [1, 2], none⟩) ∧
    (save_if_new emptyManifest "/a" ⟨"ab", 0, 0, 420⟩ 7 false false false
        [1] [2] false true).trace.get? 0 = some (.saveBlob "ab") ∧
    (0 : Nat) < 1 := by
  refine ⟨by rfl, by rfl, ?_⟩
  exact save_if_new_upload_before_insert emptyManifest "/a" ⟨"ab", 0, 0, 420⟩ 7
    false false false [1] [2] false true 1 0
    ⟨"/a", "ab", none, 0, 0, 420, [1, 2], none⟩ "ab" (by rfl) (by rfl)

/-! ## C8: idempotence of a no-op backup -/

/-- With the backend up and not a dry run, `_write_copy` always succeeds
and fills the entry's name, SHA and stat fields from its arguments. -/
theorem write_copy_ok (m : Manifest) (abs_file_name new_sha : String)
    (f : FileInfo) (fc : Bool) (genKp sig : Bytes) :
    ∃ e tr, write_copy m abs_file_name new_sha f fc false genKp sig true = .ok (e, tr) ∧
      e.abs_file_name = abs_file_name ∧ e.sha = new_sha ∧
      e.uid = f.uid ∧ e.gid = f.gid ∧ e.mode = f.mode := by
  unfold write_copy
  rcases hfd : find_existing_entry_data m new_sha with _ | ⟨kp, bsha, bkp⟩ <;>
    cases fc <;> simp [hfd]

theorem filter_name_false (rows : List MRow) (name : String)
    (hname : rows.filter (fun r => r.abs_file_name == name) = []) :
    ∀ r ∈ rows, (r.abs_file_name == name) = false := by
  intro r hr
  have := List.filter_eq_nil.mp hname r hr
  simpa using this

/-- C8: running `save_if_new` twice in a row on an unchanged file (same
content SHA and same uid/gid/mode), starting from a manifest with no row
for that path, leaves exactly one manifest row for the path: the first
call inserts it, the second call takes the final no-op branch, returns
`None` and changes nothing. -/
theorem save_if_new_noop_idempotent (m0 : Manifest) (name : String)
    (f : FileInfo) (now1 now2 : Nat) (skipD skipD2 : Bool)
    (genKp sig genKp2 sig2 : Bytes) (dTL dTL2 : Bool)
    (hname : m0.rows.filter (fun r => r.abs_file_name == name) = [])
    (hts : now1 ≤ now2) :
    (save_if_new (save_if_new m0 name f now1 false false skipD genKp sig dTL true).manifest
        name f now2 false false skipD2 genKp2 sig2 dTL2 true).result = .ok none ∧
    (save_if_new (save_if_new m0 name f now1 false false skipD genKp sig dTL true).manifest
        name f now2 false false skipD2 genKp2 sig2 dTL2 true).manifest =
      (save_if_new m0 name f now1 false false skipD genKp sig dTL true).manifest ∧
    ((save_if_new m0 name f now1 false false skipD genKp sig dTL true).manifest.rows.filter
        (fun r => r.abs_file_name == name)).length = 1 := by
  have hcf := filter_name_false m0.rows name hname
  have hge1 : m0.get_entry name now1 = none := by
    unfold Manifest.get_entry
    have hfe : m0.rows.filter
        (fun r => r.abs_file_name == name && decide (r.commit_timestamp ≤ now1)) = [] := by
      rw [List.filter_eq_nil]
      intro r hr
      simp [hcf r hr]
    rw [hfe]
    rfl
  obtain ⟨e1, tr1, hwc, hn, hs, hu, hg, hmo⟩ :=
    write_copy_ok m0 name f.sha f false genKp sig
  have hdec1 : save_if_new_decide m0 name f now1 false false skipD genKp sig dTL true
      = .ok (some e1, tr1) := by
    unfold save_if_new_decide
    rw [hge1, hwc]
    rfl
  have hr1 : save_if_new m0 name f now1 false false skipD genKp sig dTL true
      = ⟨.ok (some e1), tr1 ++ [.insertRow e1], m0.insert_or_update e1 now1⟩ := by
    unfold save_if_new
    rw [hdec1]
    rfl
  have hm1rows : (m0.insert_or_update e1 now1).rows =
      m0.rows ++ [⟨name, some f.sha, some f.uid, some f.gid, some f.mode,
        some e1.key_pair, now1⟩] := by
    unfold Manifest.insert_or_update
    rw [hn, hs, hu, hg, hmo]
  have hfilt1 : (m0.insert_or_update e1 now1).rows.filter
      (fun r => r.abs_file_name == name) =
      [⟨name, some f.sha, some f.uid, some f.gid, some f.mode,
        some e1.key_pair, now1⟩] := by
    rw [hm1rows, List.filter_append, hname]
    simp
  have hge2 : (m0.insert_or_update e1 now1).get_entry name now2 =
      some (joinBase (m0.insert_or_update e1 now1).baseShas
        ⟨name, some f.sha, some f.uid, some f.gid, some f.mode,
          some e1.key_pair, now1⟩) := by
    unfold Manifest.get_entry
    rw [hm1rows, List.filter_append]
    have h0 : m0.rows.filter
        (fun r => r.abs_file_name == name && decide (r.commit_timestamp ≤ now2)) = [] := by
      rw [List.filter_eq_nil]
      intro r hr
      simp [hcf r hr]
    rw [h0]
    simp [latestRow, hts]
  have hdec2 : save_if_new_decide (m0.insert_or_update e1 now1) name f now2
      false false skipD2 genKp2 sig2 dTL2 true = .ok (none, []) := by
    unfold save_if_new_decide
    rw [hge2]
    simp [joinBase]
  rw [hr1]
  refine ⟨?_, ?_, ?_⟩
  · show (save_if_new (m0.insert_or_update e1 now1) name f now2
      false false skipD2 genKp2 sig2 dTL2 true).result = .ok none
    unfold save_if_new
    rw [hdec2]
  · show (save_if_new (m0.insert_or_update e1 now1) name f now2
      false false skipD2 genKp2 sig2 dTL2 true).manifest = _
    unfold save_if_new
    rw [hdec2]
  · show ((m0.insert_or_update e1 now1).rows.filter
      (fun r => r.abs_file_name == name)).length = 1
    rw [hfilt1]
    rfl

/-- Closed witness for C8: an empty manifest, one file backed up twice. -/
theorem save_if_new_noop_idempotent_witness :
    (emptyManifest.rows.filter (fun r => r.abs_file_name == "/a") = [] ∧ (3 : Nat) ≤ 4) ∧
    ((save_if_new (save_if_new emptyManifest "/a" ⟨"ab", 0, 0, 420⟩ 3 false false false
        [1] [2] false true).manifest "/a" ⟨"ab", 0, 0, 420⟩ 4 false false false
        [3] [4] false true).result = .ok none ∧
     (save_if_new (save_if_new emptyManifest "/a" ⟨"ab", 0, 0, 420⟩ 3 false false false
        [1] [2] false true).manifest "/a" ⟨"ab", 0, 0, 420⟩ 4 false false false
        [3] [4] false true).manifest =
       (save_if_new emptyManifest "/a" ⟨"ab", 0, 0, 420⟩ 3 false false false
        [1] [2] false true).manifest ∧
     ((save_if_new emptyManifest "/a" ⟨"ab", 0, 0, 420⟩ 3 false false false
        [1] [2] false true).manifest.rows.filter
        (fun r => r.abs_file_name == "/a")).length = 1) :=
  ⟨⟨rfl, by omega⟩,
    save_if_new_noop_idempotent emptyManifest "/a" ⟨"ab", 0, 0, 420⟩ 3 4
      false false [1] [2] [3] [4] false false rfl (by omega)⟩

/-! ## C5: deduplication by SHA in `_write_copy` -/

/-- A character list is always a prefix of itself (the LIKE pattern made
from an entry's own SHA matches that entry). -/
theorem isPrefixOf_self (l : List Char) : l.isPrefixOf l = true := by
  induction l with
  | nil => rfl
  | cons a as ih => simp [List.isPrefixOf, ih]

/-- When no manifest entry matches the SHA, `_find_existing_entry_data`
returns nothing. -/
theorem fed_none (m : Manifest) (sha : String)
    (h : m.get_entries_by_sha sha = []) :
    find_existing_entry_data m sha = none := by
  unfold find_existing_entry_data
  rw [h]

/-- Fresh-copy shape of `_write_copy`: no existing entry, live run,
backend up — the blob is saved and the key pair is the fresh pair
extended by the HMAC signature. -/
theorem write_copy_fresh (m : Manifest) (name new_sha : String)
    (f : FileInfo) (genKp sig : Bytes)
    (hfed : find_existing_entry_data m new_sha = none) :
    write_copy m name new_sha f false false genKp sig true =
      .ok (⟨name, new_sha, none, f.uid, f.gid, f.mode, genKp ++ sig, none⟩,
        [.saveBlob new_sha]) := by
  unfold write_copy
  simp [hfed]

/-- Dedup shape of `_write_copy` (backup_store.py lines 284-289): without
`force_copy`, an existing entry's key pair, base SHA and base key pair
are reused and no blob is saved — `dry_run`, the fresh key pair and the
backend are never consulted. -/
theorem write_copy_dedup (m : Manifest) (name new_sha : String)
    (f : FileInfo) (dr : Bool) (genKp sig : Bytes) (bOk : Bool)
    (kp : Bytes) (bsha : Option String) (bkp : Option Bytes)
    (hfed : find_existing_entry_data m new_sha = some (kp, bsha, bkp)) :
    write_copy m name new_sha f false dr genKp sig bOk =
      .ok (⟨name, new_sha, bsha, f.uid, f.gid, f.mode, kp, bkp⟩, []) := by
  unfold write_copy
  simp [hfed]

/-- Joining a row against a `base_shas` table from which every row with
this SHA has been filtered out yields no base columns. -/
theorem joinBase_filtered (bss : List BRow) (r : MRow) (S : String)
    (hr : r.sha = some S) :
    joinBase (bss.filter (fun b => ¬(b.sha = S))) r =
      ⟨r.abs_file_name, r.sha, none, r.uid, r.gid, r.mode, r.key_pair, none,
        r.commit_timestamp⟩ := by
  unfold joinBase
  have hfind : (bss.filter (fun b => ¬(b.sha = S))).find?
      (fun b => some b.sha = r.sha) = none := by
    rw [List.find?_eq_none]
    intro b hb
    have h2 := (List.mem_filter.mp hb).2
    simp only [decide_eq_true_eq] at h2 ⊢
    rw [hr]
    simp only [Option.some.injEq]
    exact fun hc => h2 hc
  rw [hfind]
  rfl

/-- `get_entry` applied to an explicit manifest value. -/
theorem get_entry_mk (rows : List MRow) (bss : List BRow) (c : Bool)
    (name : String) (now : Nat) :
    Manifest.get_entry ⟨rows, bss, c⟩ name now =
      (latestRow (rows.filter
        (fun r => r.abs_file_name == name && decide (r.commit_timestamp ≤ now)))).map
        (joinBase bss) := rfl

/-- `get_entries_by_sha` applied to an explicit manifest value. -/
theorem ges_mk (rows : List MRow) (bss : List BRow) (c : Bool) (sha : String) :
    Manifest.get_entries_by_sha ⟨rows, bss, c⟩ sha =
      (rows.filter (fun r => match r.sha with
        | none => false
        | some s => sha.data.isPrefixOf s.data)).map (joinBase bss) := rfl

/-- C5: dedup by SHA.  Backing up a fresh file and then a second,
differently named file with the same content SHA uploads exactly one
content blob: the first call's trace is a blob save followed by the
manifest insert; the second call's trace is only a manifest insert (no
`saveBlob` at all — the backend flag `bOk2` and the second call's fresh
key pair `genKp2 ++ sig2` are never consulted); and the second entry
reuses the first entry's key pair `genKp ++ sig`, base SHA and base key
pair, so the two rows sharing a SHA share a key pair. -/
theorem save_if_new_dedup (m0 : Manifest) (name1 name2 : String)
    (f1 : FileInfo) (u2 g2 md2 : Nat) (now1 now2 : Nat) (sdm1 sdm2 : Bool)
    (genKp sig genKp2 sig2 : Bytes) (dTL1 dTL2 bOk2 : Bool)
    (hname1 : m0.rows.filter (fun r => r.abs_file_name == name1) = [])
    (hname2 : m0.rows.filter (fun r => r.abs_file_name == name2) = [])
    (hsha : m0.get_entries_by_sha f1.sha = [])
    (hne : (name1 == name2) = false) :
    (save_if_new m0 name1 f1 now1 false false sdm1 genKp sig dTL1 true).trace =
      [.saveBlob f1.sha, .insertRow ⟨name1, f1.sha, none, f1.uid, f1.gid,
        f1.mode, genKp ++ sig, none⟩] ∧
    (save_if_new (save_if_new m0 name1 f1 now1 false false sdm1 genKp sig dTL1
        true).manifest name2 ⟨f1.sha, u2, g2, md2⟩ now2 false false sdm2 genKp2
        sig2 dTL2 bOk2).result =
      .ok (some ⟨name2, f1.sha, none, u2, g2, md2, genKp ++ sig, none⟩) ∧
    (save_if_new (save_if_new m0 name1 f1 now1 false false sdm1 genKp sig dTL1
        true).manifest name2 ⟨f1.sha, u2, g2, md2⟩ now2 false false sdm2 genKp2
        sig2 dTL2 bOk2).trace =
      [.insertRow ⟨name2, f1.sha, none, u2, g2, md2, genKp ++ sig, none⟩] := by
  have hcf1 := filter_name_false m0.rows name1 hname1
  have hcf2 := filter_name_false m0.rows name2 hname2
  have hge1 : m0.get_entry name1 now1 = none := by
    unfold Manifest.get_entry
    have hfe : m0.rows.filter
        (fun r => r.abs_file_name == name1 && decide (r.commit_timestamp ≤ now1))
        = [] := by
      rw [List.filter_eq_nil]
      intro r hr
      simp [hcf1 r hr]
    rw [hfe]
    rfl
  have hfed0 : find_existing_entry_data m0 f1.sha = none := fed_none m0 f1.sha hsha
  have hwc1 := write_copy_fresh m0 name1 f1.sha f1 genKp sig hfed0
  have hdec1 : save_if_new_decide m0 name1 f1 now1 false false sdm1 genKp sig dTL1
      true = .ok (some ⟨name1, f1.sha, none, f1.uid, f1.gid, f1.mode,
        genKp ++ sig, none⟩, [.saveBlob f1.sha]) := by
    unfold save_if_new_decide
    rw [hge1, hwc1]
    rfl
  have hr1 : save_if_new m0 name1 f1 now1 false false sdm1 genKp sig dTL1 true
      = ⟨.ok (some ⟨name1, f1.sha, none, f1.uid, f1.gid, f1.mode,
          genKp ++ sig, none⟩),
        [.saveBlob f1.sha, .insertRow ⟨name1, f1.sha, none, f1.uid, f1.gid,
          f1.mode, genKp ++ sig, none⟩],
        m0.insert_or_update ⟨name1, f1.sha, none, f1.uid, f1.gid, f1.mode,
          genKp ++ sig, none⟩ now1⟩ := by
    unfold save_if_new
    rw [hdec1]
    rfl
  have hm1 : m0.insert_or_update ⟨name1, f1.sha, none, f1.uid, f1.gid, f1.mode,
      genKp ++ sig, none⟩ now1 =
      ⟨m0.rows ++ [⟨name1, some f1.sha, some f1.uid, some f1.gid, some f1.mode,
        some (genKp ++ sig), now1⟩],
       m0.baseShas.filter (fun b => ¬(b.sha = f1.sha)), true⟩ := rfl
  have h0 : m0.rows.filter
      (fun r => r.abs_file_name == name2 && decide (r.commit_timestamp ≤ now2))
      = [] := by
    rw [List.filter_eq_nil]
    intro r hr
    simp [hcf2 r hr]
  have hge2 : Manifest.get_entry
      ⟨m0.rows ++ [⟨name1, some f1.sha, some f1.uid, some f1.gid, some f1.mode,
        some (genKp ++ sig), now1⟩],
       m0.baseShas.filter (fun b => ¬(b.sha = f1.sha)), true⟩ name2 now2
      = none := by
    rw [get_entry_mk, List.filter_append, h0]
    simp [hne, latestRow]
  have hf0 : m0.rows.filter (fun r => match r.sha with
      | none => false
      | some s => f1.sha.data.isPrefixOf s.data) = [] := by
    have h := hsha
    unfold Manifest.get_entries_by_sha at h
    exact List.map_eq_nil_iff.mp h
  have hges2 : Manifest.get_entries_by_sha
      ⟨m0.rows ++ [⟨name1, some f1.sha, some f1.uid, some f1.gid, some f1.mode,
        some (genKp ++ sig), now1⟩],
       m0.baseShas.filter (fun b => ¬(b.sha = f1.sha)), true⟩ f1.sha
      = [joinBase (m0.baseShas.filter (fun b => ¬(b.sha = f1.sha)))
          ⟨name1, some f1.sha, some f1.uid, some f1.gid, some f1.mode,
            some (genKp ++ sig), now1⟩] := by
    rw [ges_mk, List.filter_append, hf0]
    simp [isPrefixOf_self]
  have hjoin := joinBase_filtered m0.baseShas
    ⟨name1, some f1.sha, some f1.uid, some f1.gid, some f1.mode,
      some (genKp ++ sig), now1⟩ f1.sha rfl
  have hfed2 : find_existing_entry_data
      ⟨m0.rows ++ [⟨name1, some f1.sha, some f1.uid, some f1.gid, some f1.mode,
        some (genKp ++ sig), now1⟩],
       m0.baseShas.filter (fun b => ¬(b.sha = f1.sha)), true⟩ f1.sha
      = some (genKp ++ sig, none, none) := by
    unfold find_existing_entry_data
    rw [hges2, hjoin]
    rfl
  have hwc2 := write_copy_dedup
    ⟨m0.rows ++ [⟨name1, some f1.sha, some f1.uid, some f1.gid, some f1.mode,
      some (genKp ++ sig), now1⟩],
     m0.baseShas.filter (fun b => ¬(b.sha = f1.sha)), true⟩
    name2 (FileInfo.mk f1.sha u2 g2 md2).sha ⟨f1.sha, u2, g2, md2⟩ false
    genKp2 sig2 bOk2 (genKp ++ sig) none none hfed2
  have hdec2 : save_if_new_decide
      ⟨m0.rows ++ [⟨name1, some f1.sha, some f1.uid, some f1.gid, some f1.mode,
        some (genKp ++ sig), now1⟩],
       m0.baseShas.filter (fun b => ¬(b.sha = f1.sha)), true⟩
      name2 ⟨f1.sha, u2, g2, md2⟩ now2 false false sdm2 genKp2 sig2 dTL2 bOk2
      = .ok (some ⟨name2, f1.sha, none, u2, g2, md2, genKp ++ sig, none⟩, []) := by
    unfold save_if_new_decide
    rw [hge2, hwc2]
    rfl
  rw [hr1]
  refine ⟨rfl, ?_, ?_⟩
  · show (save_if_new (m0.insert_or_update ⟨name1, f1.sha, none, f1.uid, f1.gid,
        f1.mode, genKp ++ sig, none⟩ now1) name2 ⟨f1.sha, u2, g2, md2⟩ now2
        false false sdm2 genKp2 sig2 dTL2 bOk2).result = _
    rw [hm1]
    unfold save_if_new
    rw [hdec2]
    rfl
  · show (save_if_new (m0.insert_or_update ⟨name1, f1.sha, none, f1.uid, f1.gid,
        f1.mode, genKp ++ sig, none⟩ now1) name2 ⟨f1.sha, u2, g2, md2⟩ now2
        false false sdm2 genKp2 sig2 dTL2 bOk2).trace = _
    rw [hm1]
    unfold save_if_new
    rw [hdec2]
    rfl

/-- C5 counterexample to the unconditional reading: with `force_copy`
set, `_write_copy` skips the dedup lookup entirely (backup_store.py line
283 leaves `entry_data = None` when `force_copy`), so a second file whose
content SHA is already in the manifest is uploaded to the backend again,
under a fresh key pair `[3, 4] ≠ [1, 2]` — a second content blob exists
and the two rows sharing a SHA do not share a key pair. -/
theorem save_if_new_force_copy_counterexample :
    (save_if_new emptyManifest "/a" ⟨"s", 0, 0, 420⟩ 3 false false false
        [1] [2] false true).trace =
      [.saveBlob "s", .insertRow ⟨"/a", "s", none, 0, 0, 420, [1, 2], none⟩] ∧
    (save_if_new (save_if_new emptyManifest "/a" ⟨"s", 0, 0, 420⟩ 3 false false
        false [1] [2] false true).manifest "/b" ⟨"s", 0, 0, 420⟩ 4 false true
        false [3] [4] false true).trace =
      [.saveBlob "s", .insertRow ⟨"/b", "s", none, 0, 0, 420, [3, 4], none⟩] ∧
    ([3, 4] : Bytes) ≠ [1, 2] :=
  ⟨rfl, rfl, by decide⟩

/-- Closed witness for C5: an empty manifest, two paths, same content. -/
theorem save_if_new_dedup_witness :
    (emptyManifest.rows.filter (fun r => r.abs_file_name == "/a") = [] ∧
     emptyManifest.rows.filter (fun r => r.abs_file_name == "/b") = [] ∧
     emptyManifest.get_entries_by_sha "s" = [] ∧
     (("/a" : String) == "/b") = false) ∧
    ((save_if_new emptyManifest "/a" ⟨"s", 0, 0, 420⟩ 3 false false false
        [1] [2] false true).trace =
      [.saveBlob "s", .insertRow ⟨"/a", "s", none, 0, 0, 420, [1, 2], none⟩] ∧
     (save_if_new (save_if_new emptyManifest "/a" ⟨"s", 0, 0, 420⟩ 3 false false
        false [1] [2] false true).manifest "/b" ⟨"s", 5, 6, 7⟩ 4 false false
        false [3] [4] false true).result =
      .ok (some ⟨"/b", "s", none, 5, 6, 7, [1, 2], none⟩) ∧
     (save_if_new (save_if_new emptyManifest "/a" ⟨"s", 0, 0, 420⟩ 3 false false
        false [1] [2] false true).manifest "/b" ⟨"s", 5, 6, 7⟩ 4 false false
        false [3] [4] false true).trace =
      [.insertRow ⟨"/b", "s", none, 5, 6, 7, [1, 2], none⟩]) :=
  ⟨⟨rfl, rfl, rfl, by decide⟩,
    save_if_new_dedup emptyManifest "/a" "/b" ⟨"s", 0, 0, 420⟩ 5 6 7 3 4
      false false [1] [2] [3] [4] false false true rfl rfl rfl (by decide)⟩

/-! ## C6: staging-file lifecycle in `BackupStore.save` -/

/-- `sha_to_path` (util.py lines 126-127):
`os.path.join(sha[:2], sha[2:4], sha[4:])`. -/
def sha_to_path (sha : String) : String :=
  String.intercalate "/"
    [⟨sha.data.take 2⟩, ⟨(sha.data.drop 2).take 2⟩, ⟨sha.data.drop 4⟩]

/-- Filesystem and backend events observable during `BackupStore.save`. -/
inductive FsEvent
  | createStaging (path : String)
  | backendSave (path : String)
  | removeStaging (path : String)
deriving DecidableEq, Repr

/-- `BackupStore.save` (backup_store.py lines 192-210): stage the
compressed and encrypted file at `path_join(get_scratch_dir(), dest)`
with `dest = sha_to_path(dest)` (the `with IOIter(filename)` block
creates the file), call the backend `self._save` inside the `with` block,
and `os.remove(filename)` on the line after the block.  `os.remove` is
not in a `finally` handler: when the backend raises (`backendOk = false`)
the exception propagates from inside the `with` block (whose `__exit__`
only closes the descriptor) and the remove line never runs.  `disk` lists
the staging files present in the scratch directory; `sig` abstracts the
HMAC signature returned by `compress_and_encrypt`.  Returns (result,
event trace, staging files afterwards). -/
def BackupStore.save (disk : List String) (scratch dest : String)
    (sig : Bytes) (backendOk : Bool) :
    Except Unit Bytes × List FsEvent × List String :=
  let destPath := sha_to_path dest
  let filename := scratch ++ "/" ++ destPath
  if backendOk then
    (.ok sig,
     [.createStaging filename, .backendSave destPath, .removeStaging filename],
     (disk ++ [filename]).filter (fun p => ¬(p = filename)))
  else
    (.error (),
     [.createStaging filename, .backendSave destPath],
     disk ++ [filename])

/-- C6 counterexample: a failed backend `_save` propagates the error, but
no `removeStaging` event occurred and the encrypted staging file is still
on the local disk — `os.remove` sits after the `with` block rather than
in a `finally`, refuting "the staging file has been removed before the
error propagates". -/
theorem save_staging_counterexample :
    (BackupStore.save [] "/tmp/backuppy" "12345678" [7] false).1 = .error () ∧
    (BackupStore.save [] "/tmp/backuppy" "12345678" [7] false).2.1 =
      [.createStaging "/tmp/backuppy/12/34/5678", .backendSave "12/34/5678"] ∧
    (BackupStore.save [] "/tmp/backuppy" "12345678" [7] false).2.2 =
      ["/tmp/backuppy/12/34/5678"] :=
  ⟨rfl, rfl, rfl⟩

/-- C6 (amended): when the backend `_save` raises, `BackupStore.save`
propagates the error, but the staging file remains on the local disk and
no removal ever happens; the staging file is removed only on the success
path, where it is deleted from the scratch directory after the backend
save. -/
theorem save_staging_cleanup (disk : List String) (scratch dest : String)
    (sig : Bytes) :
    ((BackupStore.save disk scratch dest sig false).1 = .error () ∧
     (scratch ++ "/" ++ sha_to_path dest) ∈
       (BackupStore.save disk scratch dest sig false).2.2 ∧
     FsEvent.removeStaging (scratch ++ "/" ++ sha_to_path dest) ∉
       (BackupStore.save disk scratch dest sig false).2.1) ∧
    ((BackupStore.save disk scratch dest sig true).1 = .ok sig ∧
     (scratch ++ "/" ++ sha_to_path dest) ∉
       (BackupStore.save disk scratch dest sig true).2.2 ∧
     FsEvent.removeStaging (scratch ++ "/" ++ sha_to_path dest) ∈
       (BackupStore.save disk scratch dest sig true).2.1) := by
  unfold BackupStore.save
  refine ⟨⟨rfl, ?_, ?_⟩, ⟨rfl, ?_, ?_⟩⟩
  · simp
  · simp
  · simp [List.mem_filter]
  · simp

end Backuppy
